import Mathlib

/-!
Verification development for the Voicer segmentation-and-context core.

Times are modelled as rationals (seconds, or raw sample counts for the VAD
stage).  Each definition is a direct translation of the corresponding Python
function from the repository:

* `SegmentManager._group_speech_segments`, `_split_long_segment`,
  `_simple_time_split`, `_smart_split_at_silence` (src/core/segment_manager.py)
* `VADProcessor._detect_with_onnx`, `_convert_to_segments`,
  `_fill_silence_segments` (src/core/vad_processor.py)
* `ContextManager.add_context`, `build_prompt`, `_control_length`
  (src/core/context_manager.py)
* `Pipeline.process_audio_file`, `_recognize_segments`, `_cleanup_temp_files`
  (src/core/pipeline.py), with the external collaborators (file system,
  ffmpeg, VAD model, ASR service, stop flag) supplied as parameters.

Python's built-in stable `sorted(..., key=...)` is modelled by a stable
insertion sort `pySortByStart`, and `str.join` by `pyJoin`.
-/

namespace Voicer

/-- Mirror of the Python dataclass `VADSegment` (models/vad_segment.py). -/
structure VADSegment where
  start_time : ℚ
  end_time : ℚ
  is_speech : Bool
  confidence : ℚ := 1
  deriving DecidableEq, Repr

/-- `VADSegment.duration` property: `end_time - start_time`. -/
def VADSegment.duration (s : VADSegment) : ℚ := s.end_time - s.start_time

/-- `covers xs a b`: the segments `xs` tile the interval `[a, b]` exactly:
the first starts at `a`, each segment is non-degenerate and starts where the
previous one ended, and the last ends at `b`. -/
def covers : List VADSegment → ℚ → ℚ → Prop
  | [], a, b => a = b
  | s :: rest, a, b => s.start_time = a ∧ a < s.end_time ∧ covers rest s.end_time b

instance covers.instDecidable : (l : List VADSegment) → (a b : ℚ) → Decidable (covers l a b)
  | [], a, b => by unfold covers; infer_instance
  | s :: rest, a, b => by
      unfold covers
      have := covers.instDecidable rest s.end_time b
      infer_instance

/-- Stable insertion of a segment into a list ordered by `start_time`
(the new element goes after all elements with a smaller-or-equal key,
matching the stability of Python's `sorted`). -/
def insertStable (a : VADSegment) : List VADSegment → List VADSegment
  | [] => [a]
  | b :: bs => if b.start_time ≤ a.start_time then b :: insertStable a bs else a :: b :: bs

/-- Model of Python's stable `sorted(segments, key=lambda x: x.start_time)`. -/
def pySortByStart : List VADSegment → List VADSegment
  | [] => []
  | a :: as' => insertStable a (pySortByStart as')

theorem insertStable_perm (a : VADSegment) (l : List VADSegment) :
    List.Perm (insertStable a l) (a :: l) := by
  induction l with
  | nil => simp [insertStable]
  | cons b bs ih =>
      by_cases h : b.start_time ≤ a.start_time
      · simpa [insertStable, h] using ((ih.cons b).trans (List.Perm.swap a b bs))
      · simp [insertStable, h]

theorem pySortByStart_perm (l : List VADSegment) : List.Perm (pySortByStart l) l := by
  induction l with
  | nil => simp [pySortByStart]
  | cons a as' ih =>
      exact (insertStable_perm a (pySortByStart as')).trans (ih.cons a)

theorem insertStable_pairwise (a : VADSegment) (l : List VADSegment)
    (h : l.Pairwise (fun x y => x.start_time ≤ y.start_time)) :
    (insertStable a l).Pairwise (fun x y => x.start_time ≤ y.start_time) := by
  induction l with
  | nil => simp [insertStable]
  | cons b bs ih =>
      rcases List.pairwise_cons.mp h with ⟨hb, hbs⟩
      by_cases hba : b.start_time ≤ a.start_time
      · rw [insertStable, if_pos hba]
        refine List.pairwise_cons.mpr ⟨?_, ih hbs⟩
        intro x hx
        have hx' : x ∈ a :: bs := (insertStable_perm a bs).mem_iff.mp hx
        rcases List.mem_cons.mp hx' with rfl | hx''
        · exact hba
        · exact hb x hx''
      · rw [insertStable, if_neg hba]
        have hab : a.start_time ≤ b.start_time := le_of_not_le hba
        refine List.pairwise_cons.mpr ⟨?_, h⟩
        intro x hx
        rcases List.mem_cons.mp hx with rfl | hx'
        · exact hab
        · exact hab.trans (hb x hx')

theorem pySortByStart_pairwise (l : List VADSegment) :
    (pySortByStart l).Pairwise (fun x y => x.start_time ≤ y.start_time) := by
  induction l with
  | nil => simp [pySortByStart]
  | cons a as' ih => exact insertStable_pairwise a (pySortByStart as') ih

/-- Configuration of `SegmentManager`: `max_duration` (default 180 s) and
`min_silence_duration` (default 0.5 s). -/
structure GroupCfg where
  maxDuration : ℚ
  minSilence : ℚ
  deriving DecidableEq, Repr

/-- One iteration layer of the `while current_start < segment.end_time` loop of
`SegmentManager._simple_time_split`, with explicit fuel (the Python loop
advances by `max_duration` each round, so enough fuel makes the fuel bound
unreachable; see `simpleTimeSplitAux_covers`). -/
def simpleTimeSplitAux (maxD : ℚ) (seg : VADSegment) : ℚ → ℕ → List VADSegment
  | _, 0 => []
  | cur, fuel + 1 =>
      if cur < seg.end_time then
        ⟨cur, min (cur + maxD) seg.end_time, seg.is_speech, seg.confidence⟩ ::
          simpleTimeSplitAux maxD seg (min (cur + maxD) seg.end_time) fuel
      else []

/-- Fuel that suffices for `simpleTimeSplitAux` when `0 < maxD`. -/
def splitFuel (maxD : ℚ) (seg : VADSegment) : ℕ :=
  (⌈(seg.end_time - seg.start_time) / maxD⌉).toNat + 1

/-- `SegmentManager._simple_time_split`: cut `[start_time, end_time]` at exact
`max_duration` boundaries. -/
def simpleTimeSplit (maxD : ℚ) (seg : VADSegment) : List VADSegment :=
  simpleTimeSplitAux maxD seg seg.start_time (splitFuel maxD seg)

/-- The silence candidates considered by `SegmentManager._smart_split_at_silence`:
non-speech segments fully contained in `seg` whose duration is at least
`min_silence_duration`. -/
def silenceCandidates (cfg : GroupCfg) (seg : VADSegment) (allSegs : List VADSegment) :
    List VADSegment :=
  allSegs.filter (fun s =>
    !s.is_speech && decide (seg.start_time ≤ s.start_time) &&
      decide (s.end_time ≤ seg.end_time) && decide (cfg.minSilence ≤ s.duration))

/-- The `for silence in silence_segments` loop of
`SegmentManager._smart_split_at_silence`.  Returns the fragments cut so far and
the final `current_start`.  A silence whose start is at least
`0.8 * max_duration` past `current_start` triggers a cut at the silence's
midpoint; the loop breaks as soon as the remainder fits in `max_duration`. -/
def smartSplitLoop (cfg : GroupCfg) (seg : VADSegment) :
    List VADSegment → ℚ → List VADSegment × ℚ
  | [], cur => ([], cur)
  | sil :: rest, cur =>
      if cfg.maxDuration * (8 / 10) ≤ sil.start_time - cur then
        let split := (sil.start_time + sil.end_time) / 2
        let piece : VADSegment := ⟨cur, split, seg.is_speech, seg.confidence⟩
        if seg.end_time - split ≤ cfg.maxDuration then ([piece], split)
        else
          let r := smartSplitLoop cfg seg rest split
          (piece :: r.1, r.2)
      else smartSplitLoop cfg seg rest cur

/-- `SegmentManager._smart_split_at_silence`. -/
def smartSplitAtSilence (cfg : GroupCfg) (seg : VADSegment) (allSegs : List VADSegment) :
    List VADSegment :=
  let sils := silenceCandidates cfg seg allSegs
  if sils = [] then simpleTimeSplit cfg.maxDuration seg
  else
    let r := smartSplitLoop cfg seg sils seg.start_time
    r.1 ++ (if r.2 < seg.end_time then
      [⟨r.2, seg.end_time, seg.is_speech, seg.confidence⟩] else [])

/-- `SegmentManager._split_long_segment`: silence-anchored split when a full
VAD timeline is available, otherwise the fixed-length fallback. -/
def splitLongSegment (cfg : GroupCfg) (seg : VADSegment) (allSegs : List VADSegment) :
    List VADSegment :=
  if allSegs = [] then simpleTimeSplit cfg.maxDuration seg
  else smartSplitAtSilence cfg seg allSegs

/-- `if current_group: groups.append(current_group)`. -/
def closeGroup (cur : List VADSegment) : List (List VADSegment) :=
  if cur = [] then [] else [cur]

/-- The `for segment in sorted_segments` loop of
`SegmentManager._group_speech_segments`, processing the remaining (sorted)
speech segments with the currently open group. -/
def groupGo (cfg : GroupCfg) (allSegs : List VADSegment) :
    List VADSegment → List VADSegment → List (List VADSegment)
  | [], cur => closeGroup cur
  | s :: rest, cur =>
      if cfg.maxDuration < s.duration then
        closeGroup cur ++ (splitLongSegment cfg s allSegs).map (fun x => [x]) ++
          groupGo cfg allSegs rest []
      else
        match cur with
        | [] => groupGo cfg allSegs rest [s]
        | c0 :: _ =>
            if s.end_time - c0.start_time ≤ cfg.maxDuration then
              groupGo cfg allSegs rest (cur ++ [s])
            else cur :: groupGo cfg allSegs rest [s]

/-- `SegmentManager._group_speech_segments`. -/
def groupSpeechSegments (cfg : GroupCfg) (speech allSegs : List VADSegment) :
    List (List VADSegment) :=
  if speech = [] then [] else groupGo cfg allSegs (pySortByStart speech) []

/-- Start time of a group (start of its first segment). -/
def groupStart (g : List VADSegment) : ℚ :=
  ((g.head?).getD ⟨0, 0, true, 1⟩).start_time

/-- End time of a group (end of its last segment). -/
def groupEnd (g : List VADSegment) : ℚ :=
  ((g.getLast?).getD ⟨0, 0, true, 1⟩).end_time

theorem covers_append {xs ys : List VADSegment} {a m b : ℚ}
    (hx : covers xs a m) (hy : covers ys m b) : covers (xs ++ ys) a b := by
  induction xs generalizing a with
  | nil => simpa [covers] using hx ▸ hy
  | cons s rest ih =>
      rcases hx with ⟨h1, h2, h3⟩
      exact ⟨h1, h2, ih h3⟩

theorem simpleTimeSplitAux_spec (maxD : ℚ) (seg : VADSegment) (hm : 0 < maxD) :
    ∀ (fuel : ℕ) (cur : ℚ), cur ≤ seg.end_time →
      seg.end_time - cur ≤ fuel * maxD →
      covers (simpleTimeSplitAux maxD seg cur fuel) cur seg.end_time ∧
      ∀ f ∈ simpleTimeSplitAux maxD seg cur fuel, f.duration ≤ maxD := by
  intro fuel
  induction fuel with
  | zero =>
      intro cur hle hb
      have : seg.end_time = cur := by
        have : seg.end_time - cur ≤ 0 := by simpa using hb
        linarith
      simp [simpleTimeSplitAux, covers, this]
  | succ fuel ih =>
      intro cur hle hb
      by_cases hcur : cur < seg.end_time
      · have hmin_le : min (cur + maxD) seg.end_time ≤ seg.end_time := min_le_right _ _
        have hcur_lt : cur < min (cur + maxD) seg.end_time :=
          lt_min (by linarith) hcur
        have hrest : seg.end_time - min (cur + maxD) seg.end_time ≤ fuel * maxD := by
          rcases le_total (cur + maxD) seg.end_time with h | h
          · rw [min_eq_left h]
            have : (fuel + 1 : ℚ) * maxD = fuel * maxD + maxD := by ring
            push_cast at hb
            linarith [hb, this]
          · rw [min_eq_right h]
            have : (0 : ℚ) ≤ fuel * maxD :=
              mul_nonneg (by positivity) hm.le
            linarith
        rcases ih (min (cur + maxD) seg.end_time) hmin_le hrest with ⟨hcov, hdur⟩
        constructor
        · rw [simpleTimeSplitAux, if_pos hcur]
          exact ⟨rfl, hcur_lt, hcov⟩
        · rw [simpleTimeSplitAux, if_pos hcur]
          intro f hf
          rcases List.mem_cons.mp hf with rfl | hf'
          · show min (cur + maxD) seg.end_time - cur ≤ maxD
            have : min (cur + maxD) seg.end_time ≤ cur + maxD := min_le_left _ _
            linarith
          · exact hdur f hf'
      · have heq : cur = seg.end_time := le_antisymm hle (not_lt.mp hcur)
        rw [simpleTimeSplitAux, if_neg hcur]
        exact ⟨by simpa [covers] using heq, by simp⟩

theorem simpleTimeSplit_spec (maxD : ℚ) (seg : VADSegment) (hm : 0 < maxD)
    (hse : seg.start_time ≤ seg.end_time) :
    covers (simpleTimeSplit maxD seg) seg.start_time seg.end_time ∧
    ∀ f ∈ simpleTimeSplit maxD seg, f.duration ≤ maxD := by
  apply simpleTimeSplitAux_spec maxD seg hm _ _ hse
  have h1 : (seg.end_time - seg.start_time) / maxD ≤
      ((⌈(seg.end_time - seg.start_time) / maxD⌉ : ℤ) : ℚ) := Int.le_ceil _
  have h2 : ((⌈(seg.end_time - seg.start_time) / maxD⌉ : ℤ) : ℚ) ≤
      ((⌈(seg.end_time - seg.start_time) / maxD⌉.toNat : ℕ) : ℚ) := by
    exact_mod_cast Int.self_le_toNat _
  have h3 : seg.end_time - seg.start_time ≤
      ((⌈(seg.end_time - seg.start_time) / maxD⌉.toNat : ℕ) : ℚ) * maxD :=
    (div_le_iff₀ hm).mp (h1.trans h2)
  show seg.end_time - seg.start_time ≤ (splitFuel maxD seg : ℚ) * maxD
  unfold splitFuel
  push_cast
  nlinarith [hm]

theorem smartSplitLoop_spec (cfg : GroupCfg) (seg : VADSegment)
    (hm : 0 < cfg.maxDuration) :
    ∀ (sils : List VADSegment) (cur : ℚ),
      (∀ x ∈ sils, x.start_time < x.end_time ∧ x.end_time ≤ seg.end_time) →
      cur < seg.end_time →
      covers (smartSplitLoop cfg seg sils cur).1 cur (smartSplitLoop cfg seg sils cur).2 ∧
      (smartSplitLoop cfg seg sils cur).2 < seg.end_time := by
  intro sils
  induction sils with
  | nil =>
      intro cur _ hcur
      exact ⟨rfl, hcur⟩
  | cons sil rest ih =>
      intro cur hwf hcur
      rcases hwf sil (List.mem_cons_self _ _) with ⟨hse, hle⟩
      have hwf' : ∀ x ∈ rest, x.start_time < x.end_time ∧ x.end_time ≤ seg.end_time :=
        fun x hx => hwf x (List.mem_cons_of_mem _ hx)
      by_cases htrig : cfg.maxDuration * (8 / 10) ≤ sil.start_time - cur
      · have hsplit_gt : cur < (sil.start_time + sil.end_time) / 2 := by
          have h8 : (0 : ℚ) < cfg.maxDuration * (8 / 10) := by positivity
          have : cur < sil.start_time := by linarith
          linarith
        have hsplit_lt : (sil.start_time + sil.end_time) / 2 < seg.end_time := by
          have : (sil.start_time + sil.end_time) / 2 < sil.end_time := by linarith
          linarith
        by_cases hfit : seg.end_time - (sil.start_time + sil.end_time) / 2 ≤ cfg.maxDuration
        · rw [smartSplitLoop, if_pos htrig]
          simp only [if_pos hfit]
          exact ⟨⟨rfl, hsplit_gt, rfl⟩, hsplit_lt⟩
        · rcases ih ((sil.start_time + sil.end_time) / 2) hwf' hsplit_lt with ⟨hcov, hlt⟩
          rw [smartSplitLoop, if_pos htrig]
          simp only [if_neg hfit]
          exact ⟨⟨rfl, hsplit_gt, hcov⟩, hlt⟩
      · rw [smartSplitLoop, if_neg htrig]
        exact ih cur hwf' hcur

theorem silenceCandidates_wf (cfg : GroupCfg) (seg : VADSegment)
    (allSegs : List VADSegment) (hs : 0 < cfg.minSilence) :
    ∀ x ∈ silenceCandidates cfg seg allSegs,
      x.start_time < x.end_time ∧ x.end_time ≤ seg.end_time := by
  intro x hx
  rcases List.mem_filter.mp hx with ⟨_, hp⟩
  simp only [Bool.and_eq_true, decide_eq_true_eq] at hp
  rcases hp with ⟨⟨⟨_, _⟩, h3⟩, h4⟩
  have hdur : cfg.minSilence ≤ x.end_time - x.start_time := h4
  exact ⟨by linarith, h3⟩

theorem smartSplitAtSilence_covers (cfg : GroupCfg) (seg : VADSegment)
    (allSegs : List VADSegment) (hm : 0 < cfg.maxDuration) (hs : 0 < cfg.minSilence)
    (hse : seg.start_time < seg.end_time) :
    covers (smartSplitAtSilence cfg seg allSegs) seg.start_time seg.end_time := by
  unfold smartSplitAtSilence
  by_cases hsil : silenceCandidates cfg seg allSegs = []
  · rw [if_pos hsil]
    exact (simpleTimeSplit_spec cfg.maxDuration seg hm hse.le).1
  · rw [if_neg hsil]
    rcases smartSplitLoop_spec cfg seg hm (silenceCandidates cfg seg allSegs)
        seg.start_time (silenceCandidates_wf cfg seg allSegs hs) hse with ⟨hcov, hlt⟩
    show covers (_ ++ _) _ _
    rw [if_pos hlt]
    exact covers_append hcov ⟨rfl, hlt, rfl⟩

theorem splitLongSegment_covers (cfg : GroupCfg) (seg : VADSegment)
    (allSegs : List VADSegment) (hm : 0 < cfg.maxDuration) (hs : 0 < cfg.minSilence)
    (hse : seg.start_time < seg.end_time) :
    covers (splitLongSegment cfg seg allSegs) seg.start_time seg.end_time := by
  unfold splitLongSegment
  by_cases h : allSegs = []
  · rw [if_pos h]
    exact (simpleTimeSplit_spec cfg.maxDuration seg hm hse.le).1
  · rw [if_neg h]
    exact smartSplitAtSilence_covers cfg seg allSegs hm hs hse

/-- Concrete inputs for the splitting counterexample: a 400 s speech interval,
one 2 s silence gap at `t = 185`, `max_duration = 180`,
`min_silence_duration = 0.5` (the scenario given in the specification). -/
def segC2 : VADSegment := ⟨0, 400, true, 1⟩

def allC2 : List VADSegment := [⟨185, 187, false, 1⟩]

def cfgC2 : GroupCfg := ⟨180, 1 / 2⟩

/-- C2 counterexample: on the specification's own scenario the silence-anchored
split cuts at the gap midpoint `t = 186` and produces fragments of 186 s and
214 s — both longer than `maxDuration = 180` — and the oversized remainder is
not split further, contradicting the claim that every fragment's duration is
at most `maxDuration`. -/
theorem split_long_segment_duration_bound_counterexample :
    (splitLongSegment cfgC2 segC2 allC2).map VADSegment.duration = [186, 214] ∧
    ¬ (∀ f ∈ splitLongSegment cfgC2 segC2 allC2,
        f.duration ≤ cfgC2.maxDuration) := by
  have hval : splitLongSegment cfgC2 segC2 allC2 =
      [⟨0, 186, true, 1⟩, ⟨186, 400, true, 1⟩] := by
    norm_num [splitLongSegment, smartSplitAtSilence, silenceCandidates,
      smartSplitLoop, segC2, allC2, cfgC2, VADSegment.duration, List.filter]
  refine ⟨by rw [hval]; norm_num [VADSegment.duration], ?_⟩
  rw [hval]
  intro h
  have := h ⟨186, 400, true, 1⟩ (by simp)
  rw [VADSegment.duration] at this
  norm_num [cfgC2] at this

/-- C2 (amended): splitting an over-long interval always yields fragments
that are pairwise contiguous and whose union is exactly the original
`[start_time, end_time]`; the fixed-length fallback `_simple_time_split`
additionally bounds every fragment by `maxDuration`, but silence-anchored
fragments may exceed `maxDuration` and are not split further. -/
theorem split_long_segment_contiguous_exact (cfg : GroupCfg) (seg : VADSegment)
    (allSegs : List VADSegment) (hm : 0 < cfg.maxDuration) (hs : 0 < cfg.minSilence)
    (hlong : cfg.maxDuration < seg.duration) :
    covers (splitLongSegment cfg seg allSegs) seg.start_time seg.end_time ∧
    ∀ f ∈ simpleTimeSplit cfg.maxDuration seg, f.duration ≤ cfg.maxDuration := by
  have hse : seg.start_time < seg.end_time := by
    have : cfg.maxDuration < seg.end_time - seg.start_time := hlong
    linarith
  exact ⟨splitLongSegment_covers cfg seg allSegs hm hs hse,
    (simpleTimeSplit_spec cfg.maxDuration seg hm hse.le).2⟩

theorem split_long_segment_contiguous_exact_witness :
    ((0 : ℚ) < cfgC2.maxDuration ∧ (0 : ℚ) < cfgC2.minSilence ∧
      cfgC2.maxDuration < segC2.duration) ∧
    (covers (splitLongSegment cfgC2 segC2 allC2) segC2.start_time segC2.end_time ∧
      ∀ f ∈ simpleTimeSplit cfgC2.maxDuration segC2,
        f.duration ≤ cfgC2.maxDuration) :=
  ⟨⟨by norm_num [cfgC2], by norm_num [cfgC2], by norm_num [cfgC2, segC2, VADSegment.duration]⟩,
    split_long_segment_contiguous_exact cfgC2 segC2 allC2
      (by norm_num [cfgC2]) (by norm_num [cfgC2])
      (by norm_num [cfgC2, segC2, VADSegment.duration])⟩

theorem groupStart_cons (c : VADSegment) (cs : List VADSegment) :
    groupStart (c :: cs) = c.start_time := rfl

theorem groupEnd_concat (l : List VADSegment) (s : VADSegment) :
    groupEnd (l ++ [s]) = s.end_time := by
  simp [groupEnd, List.getLast?_concat]

theorem groupGo_spec (cfg : GroupCfg) (allSegs : List VADSegment) :
    ∀ (l cur : List VADSegment),
      l.Pairwise (fun a b => a.start_time ≤ b.start_time) →
      (∀ s ∈ l, s.duration ≤ cfg.maxDuration) →
      (cur ≠ [] → groupEnd cur - groupStart cur ≤ cfg.maxDuration) →
      (cur ≠ [] → ∀ x ∈ l, groupStart cur ≤ x.start_time) →
      (∀ g ∈ groupGo cfg allSegs l cur,
          g ≠ [] ∧ groupEnd g - groupStart g ≤ cfg.maxDuration) ∧
      ((groupGo cfg allSegs l cur).map groupStart).Pairwise (· ≤ ·) ∧
      (∀ b, (cur ≠ [] → b ≤ groupStart cur) → (∀ x ∈ l, b ≤ x.start_time) →
          ∀ g ∈ groupGo cfg allSegs l cur, b ≤ groupStart g) := by
  intro l
  induction l with
  | nil =>
      intro cur _ _ hspan _
      by_cases hc : cur = []
      · subst hc; simp [groupGo, closeGroup]
      · simp only [groupGo, closeGroup, if_neg hc]
        refine ⟨?_, by simp, ?_⟩
        · intro g hg
          rcases List.mem_singleton.mp hg with rfl
          exact ⟨hc, hspan hc⟩
        · intro b hb _ g hg
          rcases List.mem_singleton.mp hg with rfl
          exact hb hc
  | cons s rest ih =>
      intro cur hpw hdur hspan hlb
      have hd : s.duration ≤ cfg.maxDuration := hdur s (List.mem_cons_self _ _)
      rcases List.pairwise_cons.mp hpw with ⟨hs_le, hpw'⟩
      have hdur' : ∀ x ∈ rest, x.duration ≤ cfg.maxDuration :=
        fun x hx => hdur x (List.mem_cons_of_mem _ hx)
      have hspan_s : ([s] : List VADSegment) ≠ [] →
          groupEnd [s] - groupStart [s] ≤ cfg.maxDuration := by
        intro _
        show s.end_time - s.start_time ≤ cfg.maxDuration
        exact hd
      have hlb_s : ([s] : List VADSegment) ≠ [] →
          ∀ x ∈ rest, groupStart [s] ≤ x.start_time := by
        intro _ x hx
        simpa [groupStart] using hs_le x hx
      cases cur with
      | nil =>
          simp only [groupGo, if_neg (not_lt.mpr hd)]
          rcases ih [s] hpw' hdur' hspan_s hlb_s with ⟨H1, H2, H3⟩
          refine ⟨H1, H2, ?_⟩
          intro b _ hb2 g hg
          refine H3 b (fun _ => ?_) (fun x hx => hb2 x (List.mem_cons_of_mem _ hx)) g hg
          simpa [groupStart] using hb2 s (List.mem_cons_self _ _)
      | cons c0 cs =>
          have hcur_ne : (c0 :: cs : List VADSegment) ≠ [] := List.cons_ne_nil _ _
          have hcur_lb : ∀ x ∈ s :: rest, c0.start_time ≤ x.start_time := by
            simpa [groupStart] using hlb hcur_ne
          by_cases happ : s.end_time - c0.start_time ≤ cfg.maxDuration
          · simp only [groupGo, if_neg (not_lt.mpr hd), if_pos happ]
            have hspan' : ((c0 :: cs) ++ [s] : List VADSegment) ≠ [] →
                groupEnd ((c0 :: cs) ++ [s]) - groupStart ((c0 :: cs) ++ [s]) ≤
                  cfg.maxDuration := by
              intro _
              rw [groupEnd_concat]
              simpa [groupStart] using happ
            have hlb' : ((c0 :: cs) ++ [s] : List VADSegment) ≠ [] →
                ∀ x ∈ rest, groupStart ((c0 :: cs) ++ [s]) ≤ x.start_time := by
              intro _ x hx
              simpa [groupStart] using hcur_lb x (List.mem_cons_of_mem _ hx)
            rcases ih ((c0 :: cs) ++ [s]) hpw' hdur' hspan' hlb' with ⟨H1, H2, H3⟩
            refine ⟨H1, H2, ?_⟩
            intro b hb1 hb2 g hg
            refine H3 b (fun _ => ?_) (fun x hx => hb2 x (List.mem_cons_of_mem _ hx)) g hg
            simpa [groupStart] using hb1 hcur_ne
          · simp only [groupGo, if_neg (not_lt.mpr hd), if_neg happ]
            rcases ih [s] hpw' hdur' hspan_s hlb_s with ⟨H1, H2, H3⟩
            have htail_lb : ∀ g ∈ groupGo cfg allSegs rest [s],
                c0.start_time ≤ groupStart g := by
              intro g hg
              refine H3 c0.start_time (fun _ => ?_)
                (fun x hx => hcur_lb x (List.mem_cons_of_mem _ hx)) g hg
              simpa [groupStart] using hcur_lb s (List.mem_cons_self _ _)
            refine ⟨?_, ?_, ?_⟩
            · intro g hg
              rcases List.mem_cons.mp hg with rfl | hg'
              · exact ⟨hcur_ne, hspan hcur_ne⟩
              · exact H1 g hg'
            · rw [List.map_cons]
              refine List.pairwise_cons.mpr ⟨?_, H2⟩
              intro y hy
              rcases List.mem_map.mp hy with ⟨g, hg, rfl⟩
              simpa [groupStart] using htail_lb g hg
            · intro b hb1 hb2 g hg
              rcases List.mem_cons.mp hg with rfl | hg'
              · exact hb1 hcur_ne
              · refine H3 b (fun _ => ?_)
                  (fun x hx => hb2 x (List.mem_cons_of_mem _ hx)) g hg'
                simpa [groupStart] using hb2 s (List.mem_cons_self _ _)

/-- C1: if every speech interval's own duration is at most `maxDuration`,
every group produced by `_group_speech_segments` is non-empty, spans at most
`maxDuration` from the start of its first interval to the end of its last
interval, and the groups appear in time order (non-decreasing start times). -/
theorem grouper_groups_bounded_and_ordered (cfg : GroupCfg)
    (speech allSegs : List VADSegment)
    (hmax : ∀ s ∈ speech, s.duration ≤ cfg.maxDuration) :
    (∀ g ∈ groupSpeechSegments cfg speech allSegs,
        g ≠ [] ∧ groupEnd g - groupStart g ≤ cfg.maxDuration) ∧
    ((groupSpeechSegments cfg speech allSegs).map groupStart).Pairwise (· ≤ ·) := by
  unfold groupSpeechSegments
  by_cases hsp : speech = []
  · simp [hsp]
  · rw [if_neg hsp]
    have hperm := pySortByStart_perm speech
    have hdur : ∀ s ∈ pySortByStart speech, s.duration ≤ cfg.maxDuration :=
      fun s hs => hmax s (hperm.mem_iff.mp hs)
    rcases groupGo_spec cfg allSegs (pySortByStart speech) []
        (pySortByStart_pairwise speech) hdur
        (fun h => absurd rfl h) (fun h => absurd rfl h) with ⟨H1, H2, _⟩
    exact ⟨H1, H2⟩

theorem grouper_groups_bounded_and_ordered_witness :
    (∀ s ∈ ([⟨0, 2, true, 1⟩, ⟨1, 3, true, 1⟩] : List VADSegment),
        s.duration ≤ cfgC2.maxDuration) ∧
    ((∀ g ∈ groupSpeechSegments cfgC2 [⟨0, 2, true, 1⟩, ⟨1, 3, true, 1⟩] [],
        g ≠ [] ∧ groupEnd g - groupStart g ≤ cfgC2.maxDuration) ∧
      ((groupSpeechSegments cfgC2 [⟨0, 2, true, 1⟩, ⟨1, 3, true, 1⟩] []).map
          groupStart).Pairwise (· ≤ ·)) :=
  ⟨by norm_num [cfgC2, VADSegment.duration],
    grouper_groups_bounded_and_ordered cfgC2 [⟨0, 2, true, 1⟩, ⟨1, 3, true, 1⟩] []
      (by norm_num [cfgC2, VADSegment.duration])⟩

/-! ### Context manager (src/core/context_manager.py) -/

/-- Python's `sep.join(parts)`. -/
def pyJoin (sep : String) : List String → String
  | [] => ""
  | [x] => x
  | x :: xs => x ++ sep ++ pyJoin sep xs

/-- The state of a `ContextManager`: token budget, scenario text and rolling
history of recognized texts. -/
structure CtxState where
  maxTokens : ℕ
  scenario : String
  history : List String
  deriving DecidableEq, Repr

/-- Python's `str.strip()`: drop whitespace from both ends. -/
def pyStrip (s : String) : String :=
  ⟨((s.data.dropWhile Char.isWhitespace).reverse.dropWhile Char.isWhitespace).reverse⟩

/-- `ContextManager.add_context`: ignore blank input, otherwise append the
stripped text and keep only the last 10 entries. -/
def addContext (st : CtxState) (text : String) : CtxState :=
  if pyStrip text = "" then st
  else
    { st with history :=
        if 10 < (st.history ++ [pyStrip text]).length then
          (st.history ++ [pyStrip text]).drop ((st.history ++ [pyStrip text]).length - 10)
        else st.history ++ [pyStrip text] }

/-- The parts list assembled by `ContextManager.build_prompt` before length
control: the scenario if non-empty, then the space-joined history if
non-empty. -/
def promptParts (st : CtxState) : List String :=
  (if st.scenario = "" then [] else [st.scenario]) ++
    (if st.history = [] then [] else [pyJoin " " st.history])

/-- The scenario-only parts list rebuilt inside `_control_length`. -/
def baseParts (st : CtxState) : List String :=
  if st.scenario = "" then [] else [st.scenario]

/-- The greedy walk over `reversed(context_history)` in `_control_length`:
keep taking entries while the running token total still fits in `remaining`,
stopping at the first entry that does not fit. -/
def greedyTake (count : String → ℕ) (remaining : ℤ) : List String → ℤ → List String
  | [], _ => []
  | t :: rest, cur =>
      if cur + count t ≤ remaining then t :: greedyTake count remaining rest (cur + count t)
      else []

/-- `remaining_tokens = max_tokens - base_tokens - 100` in `_control_length`. -/
def remainingTokens (count : String → ℕ) (st : CtxState) : ℤ :=
  (st.maxTokens : ℤ) - count (pyJoin "\x0a" (baseParts st)) - 100

/-- The history entries kept by `_control_length`, re-added from the most
recent backward. -/
def keptHistory (count : String → ℕ) (st : CtxState) : List String :=
  (greedyTake count (remainingTokens count st) st.history.reverse 0).reverse

/-- `ContextManager._control_length`: return the prompt unchanged if it fits,
otherwise rebuild it from the full scenario plus as many of the most recent
history entries as fit in the remaining budget minus a 100-token margin. -/
def controlLength (count : String → ℕ) (st : CtxState) (prompt : String) : String :=
  if count prompt ≤ st.maxTokens then prompt
  else
    let parts :=
      if 0 < remainingTokens count st ∧ st.history ≠ [] then
        if keptHistory count st = [] then baseParts st
        else baseParts st ++ [pyJoin " " (keptHistory count st)]
      else baseParts st
    pyJoin "\x0a" parts

/-- `ContextManager.build_prompt`, parameterized by the injected token
counter. -/
def buildPrompt (count : String → ℕ) (st : CtxState) : String :=
  controlLength count st (pyJoin "\x0a" (promptParts st))

/-- `build_prompt` as a state transformer: the method reads but never mutates
the manager's state. -/
def buildPromptCall (count : String → ℕ) (st : CtxState) : String × CtxState :=
  (buildPrompt count st, st)

theorem greedyTake_sum_le (count : String → ℕ) (remaining : ℤ) :
    ∀ (l : List String) (cur : ℤ),
      cur + ((greedyTake count remaining l cur).map (fun t => (count t : ℤ))).sum ≤
        max cur remaining := by
  intro l
  induction l with
  | nil => intro cur; simp [greedyTake]
  | cons t rest ih =>
      intro cur
      by_cases h : cur + count t ≤ remaining
      · rw [greedyTake, if_pos h]
        have := ih (cur + count t)
        have hmax : max (cur + (count t : ℤ)) remaining = remaining :=
          max_eq_right h
        simp only [List.map_cons, List.sum_cons] at *
        calc cur + ((count t : ℤ) +
              ((greedyTake count remaining rest (cur + count t)).map
                (fun t => (count t : ℤ))).sum)
            = (cur + count t) +
              ((greedyTake count remaining rest (cur + count t)).map
                (fun t => (count t : ℤ))).sum := by ring
          _ ≤ max (cur + (count t : ℤ)) remaining := this
          _ = remaining := hmax
          _ ≤ max cur remaining := le_max_right _ _
      · rw [greedyTake, if_neg h]
        simp [le_max_left]

theorem greedyTake_append (count : String → ℕ) (remaining : ℤ) :
    ∀ (l : List String) (cur : ℤ),
      ∃ q, l = greedyTake count remaining l cur ++ q := by
  intro l
  induction l with
  | nil => intro cur; exact ⟨[], rfl⟩
  | cons t rest ih =>
      intro cur
      by_cases h : cur + count t ≤ remaining
      · rcases ih (cur + count t) with ⟨q, hq⟩
        exact ⟨q, by rw [greedyTake, if_pos h, List.cons_append, ← hq]⟩
      · exact ⟨t :: rest, by rw [greedyTake, if_neg h]; rfl⟩

theorem pyJoin_count_le (count : String → ℕ) (sep : String)
    (hsub : ∀ a b, count (a ++ sep ++ b) ≤ count a + count b) :
    ∀ l : List String, l ≠ [] → count (pyJoin sep l) ≤ (l.map count).sum := by
  intro l
  induction l with
  | nil => intro h; exact absurd rfl h
  | cons x xs ih =>
      intro _
      cases xs with
      | nil => simp [pyJoin]
      | cons y ys =>
          have h1 : count (x ++ sep ++ pyJoin sep (y :: ys)) ≤
              count x + count (pyJoin sep (y :: ys)) := hsub _ _
          have h2 : count (pyJoin sep (y :: ys)) ≤ ((y :: ys).map count).sum :=
            ih (List.cons_ne_nil _ _)
          show count (x ++ sep ++ pyJoin sep (y :: ys)) ≤ _
          simp only [List.map_cons, List.sum_cons] at *
          omega

theorem keptHistory_sum_le (count : String → ℕ) (st : CtxState)
    (hpos : 0 < remainingTokens count st) :
    ((keptHistory count st).map (fun t => (count t : ℤ))).sum ≤
      remainingTokens count st := by
  have h := greedyTake_sum_le count (remainingTokens count st) st.history.reverse 0
  rw [max_eq_right hpos.le] at h
  have hrev : ((keptHistory count st).map (fun t => (count t : ℤ))).sum =
      ((greedyTake count (remainingTokens count st) st.history.reverse 0).map
        (fun t => (count t : ℤ))).sum := by
    unfold keptHistory
    simp [List.sum_reverse]
  omega

/-- C4 counterexample: with the injected counter `String.length` and a
scenario of 12 characters against `max_tokens = 10`, `build_prompt` keeps the
over-long scenario in full and its output exceeds the token budget. -/
def stC4 : CtxState := ⟨10, "aaaaaaaaaaaa", []⟩

theorem build_prompt_budget_counterexample :
    ¬ (String.length (buildPrompt String.length stC4) ≤ stC4.maxTokens) := by
  decide

/-- C4 (amended): provided the injected counter never counts a joined string
as more than the sum of its parts (for the `"\n"` and `" "` separators used)
and the scenario itself fits in the budget with the 100-token margin to
spare, `build_prompt` output always tokenizes to at most `max_tokens`; in the
over-budget case the scenario is kept in full and the kept history entries
are a suffix of the history (most recent backward, older entries dropped).
If the scenario alone overflows the budget, the output may exceed
`max_tokens` (see the counterexample). -/
theorem build_prompt_within_budget (count : String → ℕ) (st : CtxState)
    (hnl : ∀ a b, count (a ++ "\x0a" ++ b) ≤ count a + count b)
    (hsp : ∀ a b, count (a ++ " " ++ b) ≤ count a + count b)
    (hbase : count (pyJoin "\x0a" (baseParts st)) + 100 ≤ st.maxTokens) :
    count (buildPrompt count st) ≤ st.maxTokens ∧
    ∃ k, keptHistory count st = st.history.drop k := by
  constructor
  · unfold buildPrompt controlLength
    by_cases hfit : count (pyJoin "\x0a" (promptParts st)) ≤ st.maxTokens
    · rw [if_pos hfit]
      exact hfit
    · rw [if_neg hfit]
      by_cases hcond : 0 < remainingTokens count st ∧ st.history ≠ []
      · by_cases hkept : keptHistory count st = []
        · simp only [if_pos hcond, if_pos hkept]
          omega
        · simp only [if_pos hcond, if_neg hkept]
          have hsum := keptHistory_sum_le count st hcond.1
          have hctx : count (pyJoin " " (keptHistory count st)) ≤
              ((keptHistory count st).map count).sum :=
            pyJoin_count_le count " " hsp _ hkept
          have hcast : (((keptHistory count st).map count).sum : ℤ) =
              ((keptHistory count st).map (fun t => (count t : ℤ))).sum := by
            rw [Nat.cast_list_sum, List.map_map]
            rfl
          unfold remainingTokens at hsum
          cases hsc : baseParts st with
          | nil =>
              have hj : pyJoin "\x0a" ([] ++ [pyJoin " " (keptHistory count st)]) =
                  pyJoin " " (keptHistory count st) := rfl
              rw [hj]
              rw [hsc] at hbase hsum
              omega
          | cons b bs =>
              have hbs : bs = [] := by
                unfold baseParts at hsc
                by_cases h : st.scenario = ""
                · rw [if_pos h] at hsc; cases hsc
                · rw [if_neg h] at hsc
                  cases hsc
                  rfl
              subst hbs
              have hjoin : pyJoin "\x0a" ([b] ++ [pyJoin " " (keptHistory count st)]) =
                  b ++ "\x0a" ++ pyJoin " " (keptHistory count st) := rfl
              rw [hjoin]
              have h1 : count (b ++ "\x0a" ++ pyJoin " " (keptHistory count st)) ≤
                  count b + count (pyJoin " " (keptHistory count st)) := hnl _ _
              have hb : pyJoin "\x0a" (baseParts st) = b := by rw [hsc]; rfl
              rw [hb] at hbase hsum
              omega
      · simp only [if_neg hcond]
        omega
  · rcases greedyTake_append count (remainingTokens count st) st.history.reverse 0
        with ⟨q, hq⟩
    refine ⟨q.reverse.length, ?_⟩
    have hsplit : st.history = q.reverse ++
        (greedyTake count (remainingTokens count st) st.history.reverse 0).reverse := by
      have h2 := congrArg List.reverse hq
      rw [List.reverse_reverse, List.reverse_append] at h2
      exact h2
    conv_rhs => rw [hsplit, List.drop_left]
    rfl

/-- A counter which counts occurrences of the letter `a`; it is exactly
additive over concatenation, so it satisfies the join hypotheses of the
amended C4 theorem. -/
def countA (s : String) : ℕ := (s.data.filter (· = 'a')).length

theorem countA_append (a b : String) : countA (a ++ b) = countA a + countA b := by
  simp [countA, String.data_append, List.filter_append]

theorem build_prompt_within_budget_witness :
    ((∀ a b, countA (a ++ "\x0a" ++ b) ≤ countA a + countA b) ∧
      (∀ a b, countA (a ++ " " ++ b) ≤ countA a + countA b) ∧
      countA (pyJoin "\x0a" (baseParts ⟨200, "aa", ["aaa", "a"]⟩)) + 100 ≤
        (⟨200, "aa", ["aaa", "a"]⟩ : CtxState).maxTokens) ∧
    (countA (buildPrompt countA ⟨200, "aa", ["aaa", "a"]⟩) ≤
        (⟨200, "aa", ["aaa", "a"]⟩ : CtxState).maxTokens ∧
      ∃ k, keptHistory countA ⟨200, "aa", ["aaa", "a"]⟩ =
        (⟨200, "aa", ["aaa", "a"]⟩ : CtxState).history.drop k) := by
  have hnl : ∀ a b, countA (a ++ "\x0a" ++ b) ≤ countA a + countA b := by
    intro a b
    rw [countA_append, countA_append]
    simp [countA]
  have hsp : ∀ a b, countA (a ++ " " ++ b) ≤ countA a + countA b := by
    intro a b
    rw [countA_append, countA_append]
    simp [countA]
  have hbase : countA (pyJoin "\x0a" (baseParts ⟨200, "aa", ["aaa", "a"]⟩)) + 100 ≤
      (⟨200, "aa", ["aaa", "a"]⟩ : CtxState).maxTokens := by decide
  exact ⟨⟨hnl, hsp, hbase⟩,
    build_prompt_within_budget countA ⟨200, "aa", ["aaa", "a"]⟩ hnl hsp hbase⟩

/-- C8: `build_prompt` does not mutate the manager's state, so two calls
without an intervening mutation return identical strings. -/
theorem build_prompt_idempotent (count : String → ℕ) (st : CtxState) :
    (buildPromptCall count st).1 =
      (buildPromptCall count (buildPromptCall count st).2).1 := rfl

/-- C9: `add_context` with a blank (empty or whitespace-only) string leaves
the state unchanged; with a non-blank string the scenario and budget are
untouched, the stored entry is the stripped input (it becomes the last
history entry), the new history is a suffix of the old history plus the new
entry (oldest evicted first), and the history length never exceeds 10. -/
theorem add_context_spec (st : CtxState) (text : String) :
    (pyStrip text = "" → addContext st text = st) ∧
    (pyStrip text ≠ "" →
      (addContext st text).scenario = st.scenario ∧
      (addContext st text).maxTokens = st.maxTokens ∧
      (addContext st text).history.length ≤ 10 ∧
      (addContext st text).history.getLast? = some (pyStrip text) ∧
      ∃ k, (addContext st text).history = (st.history ++ [pyStrip text]).drop k) := by
  constructor
  · intro h
    unfold addContext
    rw [if_pos h]
  · intro h
    have hsc : (addContext st text).scenario = st.scenario := by
      unfold addContext; rw [if_neg h]
    have hmt : (addContext st text).maxTokens = st.maxTokens := by
      unfold addContext; rw [if_neg h]
    have hh : (addContext st text).history =
        if 10 < (st.history ++ [pyStrip text]).length then
          (st.history ++ [pyStrip text]).drop ((st.history ++ [pyStrip text]).length - 10)
        else st.history ++ [pyStrip text] := by
      unfold addContext; rw [if_neg h]
    by_cases hlen : 10 < (st.history ++ [pyStrip text]).length
    · rw [if_pos hlen] at hh
      have hk : (st.history ++ [pyStrip text]).length - 10 ≤ st.history.length := by
        simp only [List.length_append, List.length_singleton] at *
        omega
      have hdrop : (st.history ++ [pyStrip text]).drop
            ((st.history ++ [pyStrip text]).length - 10) =
          st.history.drop ((st.history ++ [pyStrip text]).length - 10) ++ [pyStrip text] :=
        List.drop_append_of_le_length hk
      refine ⟨hsc, hmt, ?_, ?_, ⟨(st.history ++ [pyStrip text]).length - 10, hh⟩⟩
      · rw [hh]
        simp only [List.length_drop]
        omega
      · rw [hh, hdrop, List.getLast?_concat]
    · rw [if_neg hlen] at hh
      refine ⟨hsc, hmt, ?_, ?_, ⟨0, by rw [hh, List.drop_zero]⟩⟩
      · rw [hh]
        exact le_of_not_lt hlen
      · rw [hh, List.getLast?_concat]

theorem add_context_spec_witness :
    (pyStrip "  hello  " ≠ "" ∧
      (addContext ⟨9000, "s", ["h1"]⟩ "  hello  ").history.length ≤ 10 ∧
      (addContext ⟨9000, "s", ["h1"]⟩ "  hello  ").history.getLast? =
        some (pyStrip "  hello  ")) ∧
    (pyStrip "   " = "" → addContext ⟨9000, "s", ["h1"]⟩ "   " = ⟨9000, "s", ["h1"]⟩) :=
  ⟨⟨by decide,
    (((add_context_spec ⟨9000, "s", ["h1"]⟩ "  hello  ").2 (by decide)).2.2).1,
    ((((add_context_spec ⟨9000, "s", ["h1"]⟩ "  hello  ").2 (by decide)).2.2).2).1⟩,
    fun _ => (add_context_spec ⟨9000, "s", ["h1"]⟩ "   ").1 (by decide)⟩

/-! ### Voice activity detection (src/core/vad_processor.py) -/

/-- `self.sample_rate = 16000`. -/
def sampleRate : ℕ := 16000

/-- `window_size = int(0.5 * self.sample_rate)`. -/
def windowSize : ℕ := 8000

/-- `hop_size = int(0.1 * self.sample_rate)`. -/
def hopSize : ℕ := 1600

/-- Mean squared energy of the window starting at sample `i`
(`np.mean(window ** 2)`). -/
def windowEnergy (audio : List ℚ) (i : ℕ) : ℚ :=
  (((audio.drop i).take windowSize).map (fun x => x * x)).sum / (windowSize : ℚ)

/-- Number of sliding windows:
`range(0, len(audio_data) - window_size + 1, hop_size)`. -/
def numWindows (audio : List ℚ) : ℕ :=
  (audio.length + 1 - windowSize + hopSize - 1) / hopSize

/-- The per-window speech probabilities of `_detect_with_onnx`: exactly 1.0
when the window's energy exceeds the hardcoded `0.001` cutoff, else 0.0. -/
def speechProbs (audio : List ℚ) : List ℚ :=
  (List.range (numWindows audio)).map
    (fun k => if 1 / 1000 < windowEnergy audio (k * hopSize) then 1 else 0)

/-- The mutable state of the edge-triggered loop in `_detect_with_onnx`:
collected timestamps (in samples), the `in_speech` flag and `speech_start`. -/
structure TsState where
  timestamps : List (ℕ × ℕ)
  inSpeech : Bool
  speechStart : ℕ
  deriving DecidableEq, Repr

/-- One iteration of the `for i, prob in enumerate(speech_probs)` loop. -/
def tsStep (threshold minSpeech : ℚ) (st : TsState) (i : ℕ) (prob : ℚ) : TsState :=
  if threshold < prob ∧ st.inSpeech = false then
    { st with inSpeech := true, speechStart := i * hopSize }
  else if prob ≤ threshold ∧ st.inSpeech = true then
    if minSpeech ≤ (((i * hopSize : ℕ) : ℚ) - (st.speechStart : ℚ)) / (sampleRate : ℚ) then
      { st with timestamps := st.timestamps ++ [(st.speechStart, i * hopSize)],
                inSpeech := false }
    else { st with inSpeech := false }
  else st

/-- The whole probability loop, with the running index. -/
def tsRun (threshold minSpeech : ℚ) : List ℚ → ℕ → TsState → TsState
  | [], _, st => st
  | p :: rest, i, st => tsRun threshold minSpeech rest (i + 1) (tsStep threshold minSpeech st i p)

/-- The trailing `if in_speech:` block of `_detect_with_onnx`, closing a
still-open speech run at the end of the audio. -/
def finalizeTs (minSpeech : ℚ) (audioLen : ℕ) (st : TsState) : List (ℕ × ℕ) :=
  if st.inSpeech = true then
    if minSpeech ≤ ((audioLen : ℚ) - (st.speechStart : ℚ)) / (sampleRate : ℚ) then
      st.timestamps ++ [(st.speechStart, audioLen)]
    else st.timestamps
  else st.timestamps

/-- `VADProcessor._detect_with_onnx`: speech timestamps in raw samples. -/
def detectWithOnnx (threshold minSpeech : ℚ) (audio : List ℚ) : List (ℕ × ℕ) :=
  finalizeTs minSpeech audio.length
    (tsRun threshold minSpeech (speechProbs audio) 0 ⟨[], false, 0⟩)

theorem tsStep_threshold_eq (t1 t2 minSpeech : ℚ) (h1 : 0 ≤ t1) (h1' : t1 < 1)
    (h2 : 0 ≤ t2) (h2' : t2 < 1) (st : TsState) (i : ℕ) (p : ℚ)
    (hp : p = 0 ∨ p = 1) :
    tsStep t1 minSpeech st i p = tsStep t2 minSpeech st i p := by
  unfold tsStep
  rcases hp with rfl | rfl
  · cases hsp : st.inSpeech
    · rw [if_neg (fun h : t1 < 0 ∧ false = false => absurd h.1 (not_lt.mpr h1)),
          if_neg (fun h : 0 ≤ t1 ∧ false = true => by simp at h),
          if_neg (fun h : t2 < 0 ∧ false = false => absurd h.1 (not_lt.mpr h2)),
          if_neg (fun h : 0 ≤ t2 ∧ false = true => by simp at h)]
    · rw [if_neg (fun h : t1 < 0 ∧ true = false => absurd h.1 (not_lt.mpr h1)),
          if_pos (⟨h1, rfl⟩ : 0 ≤ t1 ∧ true = true),
          if_neg (fun h : t2 < 0 ∧ true = false => absurd h.1 (not_lt.mpr h2)),
          if_pos (⟨h2, rfl⟩ : 0 ≤ t2 ∧ true = true)]
  · cases hsp : st.inSpeech
    · rw [if_pos (⟨h1', rfl⟩ : t1 < 1 ∧ false = false),
          if_pos (⟨h2', rfl⟩ : t2 < 1 ∧ false = false)]
    · rw [if_neg (fun h : t1 < 1 ∧ true = false => by simp at h),
          if_neg (fun h : (1 : ℚ) ≤ t1 ∧ true = true => absurd h.1 (not_le.mpr h1')),
          if_neg (fun h : t2 < 1 ∧ true = false => by simp at h),
          if_neg (fun h : (1 : ℚ) ≤ t2 ∧ true = true => absurd h.1 (not_le.mpr h2'))]

theorem tsRun_threshold_eq (t1 t2 minSpeech : ℚ) (h1 : 0 ≤ t1) (h1' : t1 < 1)
    (h2 : 0 ≤ t2) (h2' : t2 < 1) :
    ∀ (ps : List ℚ) (i : ℕ) (st : TsState), (∀ p ∈ ps, p = 0 ∨ p = 1) →
      tsRun t1 minSpeech ps i st = tsRun t2 minSpeech ps i st := by
  intro ps
  induction ps with
  | nil => intro i st _; rfl
  | cons p rest ih =>
      intro i st hps
      show tsRun t1 minSpeech rest (i + 1) (tsStep t1 minSpeech st i p) =
        tsRun t2 minSpeech rest (i + 1) (tsStep t2 minSpeech st i p)
      rw [tsStep_threshold_eq t1 t2 minSpeech h1 h1' h2 h2' st i p
        (hps p (List.mem_cons_self _ _))]
      exact ih (i + 1) _ (fun q hq => hps q (List.mem_cons_of_mem _ hq))

theorem speechProbs_binary (audio : List ℚ) :
    ∀ p ∈ speechProbs audio, p = 0 ∨ p = 1 := by
  intro p hp
  rcases List.mem_map.mp hp with ⟨k, _, rfl⟩
  by_cases h : 1 / 1000 < windowEnergy audio (k * hopSize)
  · right; rw [if_pos h]
  · left; rw [if_neg h]

/-- C10: each sliding-window speech probability is exactly 0.0 or 1.0
(decided only by the hardcoded `energy > 0.001` cutoff), so any two injected
threshold values in `[0, 1)` yield identical detection results. -/
theorem vad_threshold_has_no_influence (audio : List ℚ) (t1 t2 minSpeech : ℚ)
    (h1 : 0 ≤ t1) (h1' : t1 < 1) (h2 : 0 ≤ t2) (h2' : t2 < 1) :
    (∀ p ∈ speechProbs audio, p = 0 ∨ p = 1) ∧
    detectWithOnnx t1 minSpeech audio = detectWithOnnx t2 minSpeech audio := by
  refine ⟨speechProbs_binary audio, ?_⟩
  unfold detectWithOnnx
  rw [tsRun_threshold_eq t1 t2 minSpeech h1 h1' h2 h2' (speechProbs audio) 0
    ⟨[], false, 0⟩ (speechProbs_binary audio)]

theorem vad_threshold_has_no_influence_witness :
    ((0 : ℚ) ≤ 0 ∧ (0 : ℚ) < 1 ∧ (0 : ℚ) ≤ 1 / 2 ∧ (1 : ℚ) / 2 < 1) ∧
    ((∀ p ∈ speechProbs [(1 : ℚ), 0, 1], p = 0 ∨ p = 1) ∧
      detectWithOnnx 0 (3 / 10) [(1 : ℚ), 0, 1] =
        detectWithOnnx (1 / 2) (3 / 10) [(1 : ℚ), 0, 1]) :=
  ⟨⟨le_refl 0, by norm_num, by norm_num, by norm_num⟩,
    vad_threshold_has_no_influence [(1 : ℚ), 0, 1] 0 (1 / 2) (3 / 10)
      (le_refl 0) (by norm_num) (by norm_num) (by norm_num)⟩

/-- Convert one sample-level timestamp pair into a speech `VADSegment`
(the speech-segment loop of `_convert_to_segments`). -/
def tsToSpeechSeg (p : ℕ × ℕ) : VADSegment :=
  ⟨(p.1 : ℚ) / (sampleRate : ℚ), (p.2 : ℚ) / (sampleRate : ℚ), true, 1⟩

/-- The leading silence added by `_fill_silence_segments`, generalized over
the left edge `a` (the code uses `a = 0`). -/
def leadSilence (a : ℚ) : List VADSegment → List VADSegment
  | [] => []
  | s :: _ => if a < s.start_time then [⟨a, s.start_time, false, 1⟩] else []

/-- The middle-silence loop of `_fill_silence_segments` over the sorted
speech list: one gap segment between each pair of consecutive speech
segments whose end and start do not meet. -/
def middleSilences : List VADSegment → List VADSegment
  | [] => []
  | [_] => []
  | a :: b :: rest =>
      (if a.end_time < b.start_time then [⟨a.end_time, b.start_time, false, 1⟩] else []) ++
        middleSilences (b :: rest)

/-- The trailing silence added by `_fill_silence_segments`. -/
def trailSilence (total : ℚ) (l : List VADSegment) : List VADSegment :=
  match l.getLast? with
  | none => []
  | some sl => if sl.end_time < total then [⟨sl.end_time, total, false, 1⟩] else []

/-- `VADProcessor._fill_silence_segments`: the unsorted speech copy followed
by the leading, middle and trailing silences computed from the sorted list. -/
def fillSilenceSegments (speech : List VADSegment) (total : ℚ) : List VADSegment :=
  speech ++ leadSilence 0 (pySortByStart speech) ++
    middleSilences (pySortByStart speech) ++ trailSilence total (pySortByStart speech)

/-- `VADProcessor._convert_to_segments`: speech timestamps to segments,
silence filling, final sort by start time. -/
def convertToSegments (timestamps : List (ℕ × ℕ)) (total : ℚ) : List VADSegment :=
  pySortByStart (fillSilenceSegments (timestamps.map tsToSpeechSeg) total)

/-- C3 counterexample: with zero surviving speech timestamps
`_fill_silence_segments` adds no silence at all, so the returned segment list
is empty and does not cover `[0, totalDuration]` for a positive duration. -/
theorem vad_zero_speech_counterexample :
    convertToSegments [] 1 = [] ∧ ¬ covers (convertToSegments [] 1) 0 1 := by
  refine ⟨rfl, ?_⟩
  intro h
  have h0 : (0 : ℚ) = 1 := h
  norm_num at h0

/-- Well-formedness of sample-level timestamps: runs are non-degenerate,
ordered and non-overlapping, starting no earlier than `a`. -/
def tsChainN : ℕ → List (ℕ × ℕ) → Prop
  | _, [] => True
  | a, p :: rest => a ≤ p.1 ∧ p.1 < p.2 ∧ tsChainN p.2 rest

/-- The right edge of a timestamp chain (`a` when empty). -/
def tsLastEnd : ℕ → List (ℕ × ℕ) → ℕ
  | a, [] => a
  | _, p :: rest => tsLastEnd p.2 rest

/-- Well-formedness of speech segments in seconds, mirroring `tsChainN`. -/
def speechChain : ℚ → List VADSegment → Prop
  | _, [] => True
  | a, s :: rest => a ≤ s.start_time ∧ s.start_time < s.end_time ∧ speechChain s.end_time rest

/-- The right edge of a speech chain. -/
def chainEnd : ℚ → List VADSegment → ℚ
  | a, [] => a
  | _, s :: rest => chainEnd s.end_time rest

/-- The expected gapless timeline: silence gaps interleaved with the speech
segments from `a` up to `total`. -/
def tile (a : ℚ) : List VADSegment → ℚ → List VADSegment
  | [], total => if a < total then [⟨a, total, false, 1⟩] else []
  | s :: rest, total =>
      (if a < s.start_time then [⟨a, s.start_time, false, 1⟩] else []) ++
        s :: tile s.end_time rest total

theorem covers_mem_start : ∀ {xs : List VADSegment} {a b : ℚ},
    covers xs a b → ∀ x ∈ xs, a ≤ x.start_time := by
  intro xs
  induction xs with
  | nil => intro a b _ x hx; simp at hx
  | cons s rest ih =>
      intro a b h x hx
      rcases h with ⟨h1, h2, h3⟩
      rcases List.mem_cons.mp hx with rfl | hx'
      · exact h1.ge
      · exact (h2.le.trans (ih h3 x hx')).trans (le_refl _)

theorem covers_pairwise_lt {xs : List VADSegment} {a b : ℚ} (h : covers xs a b) :
    xs.Pairwise (fun x y => x.start_time < y.start_time) := by
  induction xs generalizing a with
  | nil => exact List.Pairwise.nil
  | cons s rest ih =>
      rcases h with ⟨h1, h2, h3⟩
      refine List.pairwise_cons.mpr ⟨?_, ih h3⟩
      intro y hy
      have := covers_mem_start h3 y hy
      rw [h1]
      exact lt_of_lt_of_le h2 this

theorem speechChain_mem_start : ∀ (l : List VADSegment) (a : ℚ),
    speechChain a l → ∀ x ∈ l, a ≤ x.start_time := by
  intro l
  induction l with
  | nil => intro a _ x hx; simp at hx
  | cons s rest ih =>
      intro a h x hx
      rcases h with ⟨h1, h2, h3⟩
      rcases List.mem_cons.mp hx with rfl | hx'
      · exact h1
      · exact (h1.trans h2.le).trans (ih s.end_time h3 x hx')

theorem speechChain_pairwise_lt : ∀ (l : List VADSegment) (a : ℚ),
    speechChain a l → l.Pairwise (fun x y => x.start_time < y.start_time) := by
  intro l
  induction l with
  | nil => intro a _; exact List.Pairwise.nil
  | cons s rest ih =>
      intro a h
      rcases h with ⟨h1, h2, h3⟩
      refine List.pairwise_cons.mpr ⟨?_, ih s.end_time h3⟩
      intro y hy
      exact lt_of_lt_of_le h2 (speechChain_mem_start rest s.end_time h3 y hy)

theorem tile_covers : ∀ (l : List VADSegment) (a total : ℚ),
    speechChain a l → chainEnd a l ≤ total → covers (tile a l total) a total := by
  intro l
  induction l with
  | nil =>
      intro a total _ hE
      show covers (if a < total then _ else []) a total
      by_cases h : a < total
      · rw [if_pos h]; exact ⟨rfl, h, rfl⟩
      · rw [if_neg h]
        exact le_antisymm hE (not_lt.mp h)
  | cons s rest ih =>
      intro a total hc hE
      rcases hc with ⟨h1, h2, h3⟩
      have hcov := ih s.end_time total h3 hE
      have hmid : covers (s :: tile s.end_time rest total) s.start_time total :=
        ⟨rfl, h2, hcov⟩
      show covers ((if a < s.start_time then _ else []) ++ _) a total
      by_cases h : a < s.start_time
      · rw [if_pos h]
        exact covers_append ⟨rfl, h, rfl⟩ hmid
      · rw [if_neg h, List.nil_append]
        have ha : a = s.start_time := le_antisymm h1 (not_lt.mp h)
        rw [ha]
        exact hmid

theorem sorted_perm_eq : ∀ (l₂ l₁ : List VADSegment),
    List.Perm l₁ l₂ →
    l₁.Pairwise (fun x y => x.start_time ≤ y.start_time) →
    l₂.Pairwise (fun x y => x.start_time < y.start_time) →
    l₁ = l₂ := by
  intro l₂
  induction l₂ with
  | nil => intro l₁ hp _ _; exact hp.eq_nil
  | cons b bs ih =>
      intro l₁ hp hle hlt
      cases l₁ with
      | nil => exact absurd hp.symm.eq_nil (List.cons_ne_nil _ _)
      | cons c cs =>
          rcases List.pairwise_cons.mp hle with ⟨hcle, hle'⟩
          rcases List.pairwise_cons.mp hlt with ⟨hblt, hlt'⟩
          have hceq : c = b := by
            by_contra hne
            have hcmem : c ∈ b :: bs := hp.mem_iff.mp (List.mem_cons_self c cs)
            have hbmem : b ∈ c :: cs := hp.mem_iff.mpr (List.mem_cons_self b bs)
            have hc' : c ∈ bs := by
              rcases List.mem_cons.mp hcmem with h | h
              · exact absurd h hne
              · exact h
            have hb' : b ∈ cs := by
              rcases List.mem_cons.mp hbmem with h | h
              · exact absurd h.symm hne
              · exact h
            exact absurd (hblt c hc') (not_lt.mpr (hcle b hb'))
          subst hceq
          have hp' : List.Perm cs bs := hp.cons_inv
          rw [ih cs hp' hle' hlt']

theorem fill_perm_tile : ∀ (l : List VADSegment) (a total : ℚ), l ≠ [] →
    List.Perm (l ++ leadSilence a l ++ middleSilences l ++ trailSilence total l)
      (tile a l total) := by
  intro l
  induction l with
  | nil => intro a total h; exact absurd rfl h
  | cons s rest ih =>
      intro a total _
      cases rest with
      | nil =>
          show List.Perm ([s] ++ leadSilence a [s] ++ middleSilences [s] ++
            trailSilence total [s]) (tile a [s] total)
          have hmid : middleSilences [s] = [] := rfl
          have htrail : trailSilence total [s] =
              (if s.end_time < total then [⟨s.end_time, total, false, 1⟩] else []) := rfl
          have htile : tile a [s] total =
              (if a < s.start_time then [⟨a, s.start_time, false, 1⟩] else []) ++
                s :: (if s.end_time < total then [⟨s.end_time, total, false, 1⟩] else []) :=
            rfl
          have hlead : leadSilence a [s] =
              (if a < s.start_time then [⟨a, s.start_time, false, 1⟩] else []) := rfl
          rw [hmid, htrail, htile, hlead]
          rw [← Multiset.coe_eq_coe]
          simp only [← Multiset.coe_add, ← Multiset.cons_coe, ← Multiset.singleton_add,
            Multiset.coe_nil]
          abel
      | cons s' r =>
          have hih := ih s.end_time total (List.cons_ne_nil _ _)
          show List.Perm ((s :: s' :: r) ++ leadSilence a (s :: s' :: r) ++
              middleSilences (s :: s' :: r) ++ trailSilence total (s :: s' :: r))
            (tile a (s :: s' :: r) total)
          have hmid : middleSilences (s :: s' :: r) =
              leadSilence s.end_time (s' :: r) ++ middleSilences (s' :: r) := rfl
          have htrail : trailSilence total (s :: s' :: r) =
              trailSilence total (s' :: r) := by
            unfold trailSilence
            rw [List.getLast?_cons_cons]
          have htile : tile a (s :: s' :: r) total =
              (if a < s.start_time then [⟨a, s.start_time, false, 1⟩] else []) ++
                s :: tile s.end_time (s' :: r) total := rfl
          have hlead : leadSilence a (s :: s' :: r) =
              (if a < s.start_time then [⟨a, s.start_time, false, 1⟩] else []) := rfl
          rw [hmid, htrail, htile, hlead]
          rw [← Multiset.coe_eq_coe] at hih ⊢
          simp only [← Multiset.coe_add, ← Multiset.cons_coe, ← Multiset.singleton_add]
            at hih ⊢
          rw [← hih]
          abel

theorem fill_sorted_covers (speech : List VADSegment) (total : ℚ)
    (hne : speech ≠ []) (hch : speechChain 0 speech)
    (hE : chainEnd 0 speech ≤ total) :
    covers (pySortByStart (fillSilenceSegments speech total)) 0 total := by
  have hlt := speechChain_pairwise_lt speech 0 hch
  have hid : pySortByStart speech = speech :=
    sorted_perm_eq speech (pySortByStart speech) (pySortByStart_perm speech)
      (pySortByStart_pairwise speech) hlt
  have hfill : fillSilenceSegments speech total =
      speech ++ leadSilence 0 speech ++ middleSilences speech ++
        trailSilence total speech := by
    unfold fillSilenceSegments
    rw [hid]
  have hperm1 : List.Perm (fillSilenceSegments speech total) (tile 0 speech total) := by
    rw [hfill]
    exact fill_perm_tile speech 0 total hne
  have htcov : covers (tile 0 speech total) 0 total := tile_covers speech 0 total hch hE
  have heq : pySortByStart (fillSilenceSegments speech total) = tile 0 speech total :=
    sorted_perm_eq _ _ ((pySortByStart_perm _).trans hperm1)
      (pySortByStart_pairwise _) (covers_pairwise_lt htcov)
  rw [heq]
  exact htcov

theorem tsChainN_append : ∀ (ts : List (ℕ × ℕ)) (a s e : ℕ),
    tsChainN a ts → tsLastEnd a ts ≤ s → s < e →
    tsChainN a (ts ++ [(s, e)]) ∧ tsLastEnd a (ts ++ [(s, e)]) = e := by
  intro ts
  induction ts with
  | nil =>
      intro a s e _ hle hse
      exact ⟨⟨hle, hse, trivial⟩, rfl⟩
  | cons p rest ih =>
      intro a s e hch hle hse
      rcases hch with ⟨h1, h2, h3⟩
      rcases ih p.2 s e h3 hle hse with ⟨hc, he⟩
      exact ⟨⟨h1, h2, hc⟩, he⟩

/-- Invariant of the timestamp state machine at time bound `B` (samples):
collected timestamps form a well-formed chain ending no later than `B`, and
an open speech run starts after the last collected end and no later than `B`. -/
def InvB (B : ℕ) (st : TsState) : Prop :=
  tsChainN 0 st.timestamps ∧ tsLastEnd 0 st.timestamps ≤ B ∧
    (st.inSpeech = true → tsLastEnd 0 st.timestamps ≤ st.speechStart ∧ st.speechStart ≤ B)

theorem InvB_mono {B C : ℕ} {st : TsState} (h : B ≤ C) (hI : InvB B st) : InvB C st :=
  ⟨hI.1, hI.2.1.trans h, fun hs => ⟨(hI.2.2 hs).1, (hI.2.2 hs).2.trans h⟩⟩

theorem tsStep_inv (θ m : ℚ) (hm : 0 < m) (B : ℕ) (st : TsState) (i : ℕ) (p : ℚ)
    (hB : B ≤ i * hopSize) (h : InvB B st) : InvB (i * hopSize) (tsStep θ m st i p) := by
  unfold tsStep
  split_ifs with hc1 hc2 hc3
  · exact ⟨h.1, h.2.1.trans hB, fun _ => ⟨h.2.1.trans hB, le_refl _⟩⟩
  · have hsp := h.2.2 hc2.2
    have hsr : (0 : ℚ) < (sampleRate : ℚ) := by norm_num [sampleRate]
    have h0 : (0 : ℚ) < (((i * hopSize : ℕ) : ℚ) - (st.speechStart : ℚ)) /
        (sampleRate : ℚ) := lt_of_lt_of_le hm hc3
    have hlt : st.speechStart < i * hopSize := by
      rcases div_pos_iff.mp h0 with ⟨hnum, _⟩ | ⟨_, hden⟩
      · have : (st.speechStart : ℚ) < ((i * hopSize : ℕ) : ℚ) := by linarith
        exact_mod_cast this
      · exact absurd hsr (not_lt.mpr hden.le)
    rcases tsChainN_append st.timestamps 0 st.speechStart (i * hopSize)
        h.1 hsp.1 hlt with ⟨hch, hle⟩
    refine ⟨hch, by rw [hle], fun hs => by simp at hs⟩
  · exact ⟨h.1, h.2.1.trans hB, fun hs => by simp at hs⟩
  · exact InvB_mono hB h

theorem tsRun_inv (θ m : ℚ) (hm : 0 < m) :
    ∀ (ps : List ℚ) (i : ℕ) (st : TsState) (B C : ℕ),
      InvB B st → B ≤ C → B ≤ i * hopSize →
      (∀ j, j < ps.length → (i + j) * hopSize ≤ C) →
      InvB C (tsRun θ m ps i st) := by
  intro ps
  induction ps with
  | nil =>
      intro i st B C h hBC _ _
      exact InvB_mono hBC h
  | cons p rest ih =>
      intro i st B C h hBC hBi hidx
      have h0 : i * hopSize ≤ C := by
        have := hidx 0 (by simp)
        simpa using this
      have hst' := tsStep_inv θ m hm B st i p hBi h
      show InvB C (tsRun θ m rest (i + 1) (tsStep θ m st i p))
      refine ih (i + 1) _ (i * hopSize) C hst' h0 ?_ ?_
      · exact Nat.mul_le_mul_right hopSize (Nat.le_succ i)
      · intro j hj
        have heq : i + 1 + j = i + (j + 1) := by omega
        rw [heq]
        exact hidx (j + 1) (by simpa using Nat.succ_lt_succ hj)

theorem detect_chain (θ m : ℚ) (audio : List ℚ) (hm : 0 < m) :
    tsChainN 0 (detectWithOnnx θ m audio) ∧
    tsLastEnd 0 (detectWithOnnx θ m audio) ≤ audio.length := by
  have hfold : InvB audio.length
      (tsRun θ m (speechProbs audio) 0 ⟨[], false, 0⟩) := by
    apply tsRun_inv θ m hm (speechProbs audio) 0 ⟨[], false, 0⟩ 0 audio.length
    · exact ⟨trivial, Nat.zero_le _, fun hs => by simp at hs⟩
    · exact Nat.zero_le _
    · exact Nat.zero_le _
    · intro j hj
      have hj' : j < numWindows audio := by
        simpa [speechProbs] using hj
      unfold numWindows windowSize at hj'
      show (0 + j) * hopSize ≤ audio.length
      unfold hopSize at hj' ⊢
      omega
  unfold detectWithOnnx finalizeTs
  rcases hfold with ⟨hch, hle, hsp⟩
  split_ifs with hins hdur
  · have hs := hsp hins
    have hsr : (0 : ℚ) < (sampleRate : ℚ) := by norm_num [sampleRate]
    have h0 : (0 : ℚ) <
        ((audio.length : ℚ) -
          ((tsRun θ m (speechProbs audio) 0 ⟨[], false, 0⟩).speechStart : ℚ)) /
          (sampleRate : ℚ) := lt_of_lt_of_le hm hdur
    have hlt : (tsRun θ m (speechProbs audio) 0 ⟨[], false, 0⟩).speechStart <
        audio.length := by
      rcases div_pos_iff.mp h0 with ⟨hnum, _⟩ | ⟨_, hden⟩
      · have : ((tsRun θ m (speechProbs audio) 0 ⟨[], false, 0⟩).speechStart : ℚ) <
            (audio.length : ℚ) := by linarith
        exact_mod_cast this
      · exact absurd hsr (not_lt.mpr hden.le)
    rcases tsChainN_append _ 0 _ _ hch hs.1 hlt with ⟨h1, h2⟩
    exact ⟨h1, le_of_eq h2⟩
  · exact ⟨hch, hle⟩
  · exact ⟨hch, hle⟩

theorem tsChain_toSegs : ∀ (ts : List (ℕ × ℕ)) (a : ℕ), tsChainN a ts →
    speechChain ((a : ℚ) / (sampleRate : ℚ)) (ts.map tsToSpeechSeg) ∧
    chainEnd ((a : ℚ) / (sampleRate : ℚ)) (ts.map tsToSpeechSeg) =
      (tsLastEnd a ts : ℚ) / (sampleRate : ℚ) := by
  intro ts
  induction ts with
  | nil => intro a _; exact ⟨trivial, rfl⟩
  | cons p rest ih =>
      intro a h
      rcases h with ⟨h1, h2, h3⟩
      rcases ih p.2 h3 with ⟨hc, he⟩
      have hsr : (0 : ℚ) < (sampleRate : ℚ) := by norm_num [sampleRate]
      refine ⟨⟨?_, ?_, hc⟩, he⟩
      · exact (div_le_div_iff_of_pos_right hsr).mpr (by exact_mod_cast h1)
      · exact (div_lt_div_iff_of_pos_right hsr).mpr (by exact_mod_cast h2)

theorem convert_covers_detect (audio : List ℚ) (θ minSpeech : ℚ)
    (hm : 0 < minSpeech)
    (hne : detectWithOnnx θ minSpeech audio ≠ []) :
    covers (convertToSegments (detectWithOnnx θ minSpeech audio)
        ((audio.length : ℚ) / (sampleRate : ℚ)))
      0 ((audio.length : ℚ) / (sampleRate : ℚ)) := by
  rcases detect_chain θ minSpeech audio hm with ⟨hch, hle⟩
  rcases tsChain_toSegs (detectWithOnnx θ minSpeech audio) 0 hch with ⟨hsc, hce⟩
  have h0 : ((0 : ℕ) : ℚ) / (sampleRate : ℚ) = 0 := by norm_num
  rw [h0] at hsc hce
  have hsr : (0 : ℚ) < (sampleRate : ℚ) := by norm_num [sampleRate]
  unfold convertToSegments
  apply fill_sorted_covers
  · simpa using hne
  · exact hsc
  · rw [hce]
    exact (div_le_div_iff_of_pos_right hsr).mpr (by exact_mod_cast hle)

/-- C3 (amended): for any audio input, whenever at least one speech interval
survives the `minSpeechDuration` filter (`minSpeechDuration > 0`), the
segment list produced by `_convert_to_segments` is strictly ordered by start
time and exactly tiles `[0, totalDuration]` (non-overlapping, gapless).  When
zero speech intervals survive, the returned list is empty and covers nothing
(see the counterexample). -/
theorem vad_timeline_partitions (audio : List ℚ) (θ minSpeech : ℚ)
    (hm : 0 < minSpeech)
    (hne : detectWithOnnx θ minSpeech audio ≠ []) :
    (convertToSegments (detectWithOnnx θ minSpeech audio)
        ((audio.length : ℚ) / (sampleRate : ℚ))).Pairwise
      (fun x y => x.start_time < y.start_time) ∧
    covers (convertToSegments (detectWithOnnx θ minSpeech audio)
        ((audio.length : ℚ) / (sampleRate : ℚ)))
      0 ((audio.length : ℚ) / (sampleRate : ℚ)) := by
  have h := convert_covers_detect audio θ minSpeech hm hne
  exact ⟨covers_pairwise_lt h, h⟩

theorem vad_witness_probs :
    speechProbs (List.replicate 8000 (1 : ℚ)) = [1] := by
  have hlen : (List.replicate 8000 (1 : ℚ)).length = 8000 := by
    rw [List.length_replicate]
  have hnw : numWindows (List.replicate 8000 (1 : ℚ)) = 1 := by
    unfold numWindows windowSize hopSize
    rw [hlen]
  have hen : windowEnergy (List.replicate 8000 (1 : ℚ)) 0 = 1 := by
    unfold windowEnergy windowSize
    rw [List.drop_zero, List.take_replicate]
    norm_num [List.map_replicate, List.sum_replicate]
  unfold speechProbs
  rw [hnw]
  rw [show List.range 1 = [0] from rfl]
  simp only [List.map_cons, List.map_nil, Nat.zero_mul]
  rw [hen]
  norm_num

theorem vad_witness_detect :
    detectWithOnnx (1 / 2) (3 / 10) (List.replicate 8000 (1 : ℚ)) = [(0, 8000)] := by
  unfold detectWithOnnx
  rw [vad_witness_probs, List.length_replicate]
  show finalizeTs (3 / 10) 8000 (tsRun (1 / 2) (3 / 10) [1] 0 ⟨[], false, 0⟩) = [(0, 8000)]
  have hstep : tsStep (1 / 2) (3 / 10) ⟨[], false, 0⟩ 0 1 = ⟨[], true, 0⟩ := by
    unfold tsStep
    rw [if_pos (⟨by norm_num, rfl⟩ : (1 : ℚ) / 2 < 1 ∧ false = false)]
    norm_num [hopSize]
  show finalizeTs (3 / 10) 8000 (tsStep (1 / 2) (3 / 10) ⟨[], false, 0⟩ 0 1) = [(0, 8000)]
  rw [hstep]
  unfold finalizeTs
  norm_num [sampleRate]

set_option maxRecDepth 2000 in
theorem vad_timeline_partitions_witness :
    ((0 : ℚ) < 3 / 10 ∧
      detectWithOnnx (1 / 2) (3 / 10) (List.replicate 8000 (1 : ℚ)) ≠ []) ∧
    ((convertToSegments
        (detectWithOnnx (1 / 2) (3 / 10) (List.replicate 8000 (1 : ℚ)))
        (((List.replicate 8000 (1 : ℚ)).length : ℚ) / (sampleRate : ℚ))).Pairwise
      (fun x y => x.start_time < y.start_time) ∧
    covers (convertToSegments
        (detectWithOnnx (1 / 2) (3 / 10) (List.replicate 8000 (1 : ℚ)))
        (((List.replicate 8000 (1 : ℚ)).length : ℚ) / (sampleRate : ℚ)))
      0 (((List.replicate 8000 (1 : ℚ)).length : ℚ) / (sampleRate : ℚ))) :=
  ⟨⟨by norm_num, by rw [vad_witness_detect]; simp⟩,
    vad_timeline_partitions (List.replicate 8000 (1 : ℚ)) (1 / 2) (3 / 10)
      (by norm_num) (by rw [vad_witness_detect]; simp)⟩

/-! ### Pipeline orchestration (src/core/pipeline.py) -/

/-- The typed counterpart of the `PipelineError` messages raised by
`Pipeline.process_audio_file` and its helpers. -/
inductive PipelineErr where
  | inputMissing
  | userCancelled
  | conversionFailed
  | noSpeechDetected
  | saveFailed
  deriving DecidableEq, Repr

/-- Identifier of a temporary file created during a run: the converted audio
file or one extracted segment file. -/
inductive TempFile where
  | converted
  | segment (idx : ℕ)
  deriving DecidableEq, Repr

/-- The result dict of one `ASRClient.recognize` call (success flag and
recognized text). -/
structure RecogOutcome where
  success : Bool
  text : String
  deriving DecidableEq, Repr

/-- One entry of the `results` list built by `_recognize_segments`. -/
structure SegOutcome where
  success : Bool
  text : String
  segId : ℕ
  deriving DecidableEq, Repr

/-- A materialized audio segment (`AudioSegment`) as the orchestrator sees
it: its group index and time range. -/
structure MatSegment where
  idx : ℕ
  startTime : ℚ
  endTime : ℚ
  deriving DecidableEq, Repr

/-- The external collaborators and inputs of one `process_audio_file` run:
file existence, input format, ffmpeg conversion/extraction outcomes, the VAD
result, the ASR collaborator, the token counter and initial context, the
save outcome, and the cooperative stop flag as read at the k-th checked
boundary (checks are numbered in execution order). -/
structure PipelineEnv where
  inputExists : Bool
  inputIsOpus : Bool
  conversionOk : Bool
  vadSpeech : List VADSegment
  vadAll : List VADSegment
  extractOk : ℕ → Bool
  recognize : ℕ → String → RecogOutcome
  count : String → ℕ
  initCtx : CtxState
  saveOk : Bool
  stopFlag : ℕ → Bool

/-- `Pipeline._convert_audio`: an `.opus` input is passed through (and never
deleted later); otherwise conversion produces a temporary converted file, and
a conversion failure aborts the run. -/
def convertAudio (env : PipelineEnv) : Except PipelineErr (List TempFile × Bool) :=
  if env.inputIsOpus then Except.ok ([], false)
  else if env.conversionOk then Except.ok ([TempFile.converted], true)
  else Except.error PipelineErr.conversionFailed

/-- `SegmentManager.create_segments_from_vad` as seen by the orchestrator:
group the speech timeline, then materialize each group whose ffmpeg
extraction succeeds (`_create_segment_from_group` returns `None` for an empty
group or a failed extraction, and those groups are skipped). -/
def materialize (cfg : GroupCfg) (env : PipelineEnv) : List MatSegment :=
  (groupSpeechSegments cfg env.vadSpeech env.vadAll).enum.filterMap
    (fun gi => if env.extractOk gi.1 ∧ gi.2 ≠ [] then
        some ⟨gi.1, groupStart gi.2, groupEnd gi.2⟩ else none)

/-- The `for i, segment in enumerate(segments, 1)` loop of
`_recognize_segments`, with the global check counter, the rolling context and
the log of segment indices for which a recognition call was actually made.
A set stop flag raises (`Except.error`), which the outer handler propagates. -/
def recognizeLoop (env : PipelineEnv) :
    List MatSegment → ℕ → CtxState →
      Except PipelineErr (List SegOutcome) × ℕ × CtxState × List ℕ
  | [], c, ctx => (Except.ok [], c, ctx, [])
  | seg :: rest, c, ctx =>
      if env.stopFlag c then (Except.error PipelineErr.userCancelled, c, ctx, [])
      else
        let out := env.recognize seg.idx (buildPrompt env.count ctx)
        let ctx' := if out.success then addContext ctx out.text else ctx
        let r := recognizeLoop env rest (c + 1) ctx'
        (match r.1 with
         | Except.error e => Except.error e
         | Except.ok outs => Except.ok (⟨out.success, out.text, seg.idx⟩ :: outs),
         r.2.1, r.2.2.1, seg.idx :: r.2.2.2)

/-- `recognition_success_rate`: completed over total, 0 for an empty list. -/
def successRate (outs : List SegOutcome) : ℚ :=
  if outs = [] then 0
  else ((outs.filter (fun o => o.success)).length : ℚ) / (outs.length : ℚ)

/-- The result dict assembled on the success path of `process_audio_file`. -/
structure RunResult where
  success : Bool
  textContent : String
  outcomes : List SegOutcome
  speechCount : ℕ
  rate : ℚ
  deriving DecidableEq, Repr

def mkResult (env : PipelineEnv) (outs : List SegOutcome) : RunResult :=
  { success := true,
    textContent := pyJoin " " ((outs.filter (fun o => o.success)).map (fun o => o.text)),
    outcomes := outs,
    speechCount := env.vadSpeech.length,
    rate := successRate outs }

/-- `Pipeline.process_audio_file`.  Returns the run outcome, the temporary
files still existing when the call returns, and the log of recognition calls
made.  Checked boundaries in order: 0 before conversion, 1 before VAD,
2 before grouping, 3 before recognition, 4+i before segment i, and one more
before saving.  `_cleanup_temp_files` runs only on the success path; any
raised error (including cancellation) propagates through the outer handler
without cleanup. -/
def processAudioFile (cfg : GroupCfg) (env : PipelineEnv) :
    Except PipelineErr RunResult × List TempFile × List ℕ :=
  if env.inputExists = false then (Except.error PipelineErr.inputMissing, [], [])
  else if env.stopFlag 0 then (Except.error PipelineErr.userCancelled, [], [])
  else
    match convertAudio env with
    | Except.error e => (Except.error e, [], [])
    | Except.ok (files0, _removeAfter) =>
        if env.stopFlag 1 then (Except.error PipelineErr.userCancelled, files0, [])
        else if env.vadSpeech = [] then
          (Except.error PipelineErr.noSpeechDetected, files0, [])
        else if env.stopFlag 2 then (Except.error PipelineErr.userCancelled, files0, [])
        else
          let segs := materialize cfg env
          let files1 := files0 ++ segs.map (fun s => TempFile.segment s.idx)
          if env.stopFlag 3 then (Except.error PipelineErr.userCancelled, files1, [])
          else
            let r := recognizeLoop env segs 4 env.initCtx
            match r.1 with
            | Except.error e => (Except.error e, files1, r.2.2.2)
            | Except.ok outs =>
                if env.stopFlag r.2.1 then
                  (Except.error PipelineErr.userCancelled, files1, r.2.2.2)
                else if env.saveOk = false then
                  (Except.error PipelineErr.saveFailed, files1, r.2.2.2)
                else (Except.ok (mkResult env outs), [], r.2.2.2)

/-- Reference form of the recognition loop: one outcome per segment, in
order, threading the context exactly as the code does (append to history on
success only). -/
def straightLoop (env : PipelineEnv) : List MatSegment → CtxState → List SegOutcome
  | [], _ => []
  | seg :: rest, ctx =>
      let out := env.recognize seg.idx (buildPrompt env.count ctx)
      ⟨out.success, out.text, seg.idx⟩ ::
        straightLoop env rest (if out.success then addContext ctx out.text else ctx)

theorem straightLoop_map_idx (env : PipelineEnv) :
    ∀ (segs : List MatSegment) (ctx : CtxState),
      (straightLoop env segs ctx).map (fun o => o.segId) =
        segs.map (fun s => s.idx) := by
  intro segs
  induction segs with
  | nil => intro ctx; rfl
  | cons seg rest ih =>
      intro ctx
      show _ :: (straightLoop env rest _).map _ = _ :: rest.map _
      rw [ih]

theorem recognizeLoop_clean (env : PipelineEnv) :
    ∀ (segs : List MatSegment) (c : ℕ) (ctx : CtxState),
      (∀ k, c ≤ k → k < c + segs.length → env.stopFlag k = false) →
      (recognizeLoop env segs c ctx).1 = Except.ok (straightLoop env segs ctx) ∧
      (recognizeLoop env segs c ctx).2.1 = c + segs.length ∧
      (recognizeLoop env segs c ctx).2.2.2 = segs.map (fun s => s.idx) := by
  intro segs
  induction segs with
  | nil => intro c ctx _; exact ⟨rfl, rfl, rfl⟩
  | cons seg rest ih =>
      intro c ctx hflags
      have hc : env.stopFlag c = false :=
        hflags c (le_refl c) (by simp)
      have hrest := ih (c + 1)
        (if (env.recognize seg.idx (buildPrompt env.count ctx)).success then
          addContext ctx (env.recognize seg.idx (buildPrompt env.count ctx)).text
         else ctx)
        (fun k hk1 hk2 => hflags k (by omega) (by simp at hk2 ⊢; omega))
      rcases hrest with ⟨h1, h2, h3⟩
      unfold recognizeLoop
      rw [hc]
      simp only [Bool.false_eq_true, if_false]
      refine ⟨?_, ?_, ?_⟩
      · show (match (recognizeLoop env rest (c + 1) _).1 with
          | Except.error e => Except.error e
          | Except.ok outs => Except.ok (_ :: outs)) = _
        rw [h1]
        rfl
      · show (recognizeLoop env rest (c + 1) _).2.1 = _
        rw [h2]
        simp only [List.length_cons]
        omega
      · show seg.idx :: (recognizeLoop env rest (c + 1) _).2.2.2 = _
        rw [h3]
        rfl

theorem recognizeLoop_cancelled (env : PipelineEnv) :
    ∀ (segs : List MatSegment) (c : ℕ) (ctx : CtxState) (i : ℕ),
      i < segs.length →
      env.stopFlag (c + i) = true →
      (∀ k, c ≤ k → k < c + i → env.stopFlag k = false) →
      (recognizeLoop env segs c ctx).1 = Except.error PipelineErr.userCancelled ∧
      (recognizeLoop env segs c ctx).2.2.2 =
        (segs.take i).map (fun s => s.idx) := by
  intro segs
  induction segs with
  | nil => intro c ctx i hi _ _; simp at hi
  | cons seg rest ih =>
      intro c ctx i hi hset hbefore
      cases i with
      | zero =>
          have hc : env.stopFlag c = true := by simpa using hset
          unfold recognizeLoop
          rw [hc]
          exact ⟨rfl, rfl⟩
      | succ i =>
          have hc : env.stopFlag c = false :=
            hbefore c (le_refl c) (by omega)
          have hrest := ih (c + 1)
            (if (env.recognize seg.idx (buildPrompt env.count ctx)).success then
              addContext ctx (env.recognize seg.idx (buildPrompt env.count ctx)).text
             else ctx)
            i (by simpa using Nat.lt_of_succ_lt_succ hi)
            (by rw [show c + 1 + i = c + (i + 1) by omega]; exact hset)
            (fun k hk1 hk2 => hbefore k (by omega) (by omega))
          rcases hrest with ⟨h1, h2⟩
          unfold recognizeLoop
          rw [hc]
          simp only [Bool.false_eq_true, if_false]
          refine ⟨?_, ?_⟩
          · show (match (recognizeLoop env rest (c + 1) _).1 with
              | Except.error e => Except.error e
              | Except.ok outs => Except.ok (_ :: outs)) = _
            rw [h1]
          · show seg.idx :: (recognizeLoop env rest (c + 1) _).2.2.2 = _
            rw [h2]
            rfl

/-- C5: a run that reaches the VAD stage and detects zero speech segments
fails with the `NoSpeechDetected` fatal error instead of returning a
successful result with empty text. -/
theorem pipeline_no_speech_fails (cfg : GroupCfg) (env : PipelineEnv)
    (hex : env.inputExists = true)
    (hconv : env.inputIsOpus = true ∨ env.conversionOk = true)
    (hstop : ∀ c, env.stopFlag c = false)
    (hvad : env.vadSpeech = []) :
    (processAudioFile cfg env).1 = Except.error PipelineErr.noSpeechDetected := by
  rcases hconv with hop | hok
  · simp [processAudioFile, convertAudio, hex, hstop, hvad, hop]
  · by_cases hop : env.inputIsOpus = true
    · simp [processAudioFile, convertAudio, hex, hstop, hvad, hop]
    · simp [processAudioFile, convertAudio, hex, hstop, hvad, hop, hok]

def envC5 : PipelineEnv :=
  { inputExists := true, inputIsOpus := true, conversionOk := true,
    vadSpeech := [], vadAll := [], extractOk := fun _ => true,
    recognize := fun _ _ => ⟨true, "t"⟩, count := fun _ => 0,
    initCtx := ⟨9000, "", []⟩, saveOk := true, stopFlag := fun _ => false }

theorem pipeline_no_speech_fails_witness :
    (envC5.inputExists = true ∧ (envC5.inputIsOpus = true ∨ envC5.conversionOk = true) ∧
      (∀ c, envC5.stopFlag c = false) ∧ envC5.vadSpeech = []) ∧
    (processAudioFile ⟨180, 1⟩ envC5).1 = Except.error PipelineErr.noSpeechDetected :=
  ⟨⟨rfl, Or.inl rfl, fun _ => rfl, rfl⟩,
    pipeline_no_speech_fails ⟨180, 1⟩ envC5 rfl (Or.inl rfl) (fun _ => rfl) rfl⟩

theorem processAudioFile_success (cfg : GroupCfg) (env : PipelineEnv)
    (hex : env.inputExists = true)
    (hconv : env.inputIsOpus = true ∨ env.conversionOk = true)
    (hstop : ∀ c, env.stopFlag c = false)
    (hspeech : env.vadSpeech ≠ [])
    (hsave : env.saveOk = true) :
    processAudioFile cfg env =
      (Except.ok (mkResult env (straightLoop env (materialize cfg env) env.initCtx)),
        [], (materialize cfg env).map (fun s => s.idx)) := by
  rcases recognizeLoop_clean env (materialize cfg env) 4 env.initCtx
      (fun k _ _ => hstop k) with ⟨h1, h2, h3⟩
  rcases hconv with hop | hok
  · simp [processAudioFile, convertAudio, hex, hstop, hspeech, hop, hsave, h1, h2, h3]
  · by_cases hop : env.inputIsOpus = true
    · simp [processAudioFile, convertAudio, hex, hstop, hspeech, hop, hsave, h1, h2, h3]
    · simp [processAudioFile, convertAudio, hex, hstop, hspeech, hop, hok, hsave,
        h1, h2, h3]

theorem successRate_eq (outs : List SegOutcome) :
    successRate outs =
      ((outs.filter (fun o => o.success)).length : ℚ) / (outs.length : ℚ) := by
  unfold successRate
  by_cases h : outs = []
  · subst h
    simp
  · rw [if_neg h]

/-- C6: with no cancellation, a run in which some recognitions fail still
produces one outcome per materialized segment, in segment order (failures are
recorded and the loop continues); the aggregated text is the space-joined
concatenation of exactly the successful outcomes' texts in order, and the
reported success rate is the number of successful segments divided by the
total number of segments. -/
theorem pipeline_partial_failure_aggregation (cfg : GroupCfg) (env : PipelineEnv)
    (hex : env.inputExists = true)
    (hconv : env.inputIsOpus = true ∨ env.conversionOk = true)
    (hstop : ∀ c, env.stopFlag c = false)
    (hspeech : env.vadSpeech ≠ [])
    (hsave : env.saveOk = true) :
    ∃ r, (processAudioFile cfg env).1 = Except.ok r ∧
      r.outcomes = straightLoop env (materialize cfg env) env.initCtx ∧
      r.outcomes.map (fun o => o.segId) = (materialize cfg env).map (fun s => s.idx) ∧
      r.outcomes.length = (materialize cfg env).length ∧
      r.textContent =
        pyJoin " " ((r.outcomes.filter (fun o => o.success)).map (fun o => o.text)) ∧
      r.rate = ((r.outcomes.filter (fun o => o.success)).length : ℚ) /
        (r.outcomes.length : ℚ) := by
  have hsucc := processAudioFile_success cfg env hex hconv hstop hspeech hsave
  refine ⟨mkResult env (straightLoop env (materialize cfg env) env.initCtx),
    by rw [hsucc], rfl, ?_, ?_, rfl, ?_⟩
  · exact straightLoop_map_idx env (materialize cfg env) env.initCtx
  · have := congrArg List.length (straightLoop_map_idx env (materialize cfg env) env.initCtx)
    simpa using this
  · exact successRate_eq (straightLoop env (materialize cfg env) env.initCtx)

def envC6 : PipelineEnv :=
  { inputExists := true, inputIsOpus := true, conversionOk := true,
    vadSpeech := [⟨0, 1, true, 1⟩, ⟨2, 3, true, 1⟩, ⟨4, 5, true, 1⟩],
    vadAll := [], extractOk := fun _ => true,
    recognize := fun i _ =>
      if i = 0 then ⟨true, "a"⟩ else if i = 1 then ⟨false, "b"⟩ else ⟨true, "c"⟩,
    count := fun _ => 0, initCtx := ⟨9000, "", []⟩, saveOk := true,
    stopFlag := fun _ => false }

theorem pipeline_partial_failure_aggregation_witness :
    (envC6.inputExists = true ∧ (envC6.inputIsOpus = true ∨ envC6.conversionOk = true) ∧
      (∀ c, envC6.stopFlag c = false) ∧ envC6.vadSpeech ≠ [] ∧ envC6.saveOk = true) ∧
    (∃ r, (processAudioFile ⟨1, 1⟩ envC6).1 = Except.ok r ∧
      r.outcomes = straightLoop envC6 (materialize ⟨1, 1⟩ envC6) envC6.initCtx ∧
      r.outcomes.map (fun o => o.segId) =
        (materialize ⟨1, 1⟩ envC6).map (fun s => s.idx) ∧
      r.outcomes.length = (materialize ⟨1, 1⟩ envC6).length ∧
      r.textContent =
        pyJoin " " ((r.outcomes.filter (fun o => o.success)).map (fun o => o.text)) ∧
      r.rate = ((r.outcomes.filter (fun o => o.success)).length : ℚ) /
        (r.outcomes.length : ℚ)) :=
  ⟨⟨rfl, Or.inl rfl, fun _ => rfl, by simp [envC6], rfl⟩,
    pipeline_partial_failure_aggregation ⟨1, 1⟩ envC6 rfl (Or.inl rfl)
      (fun _ => rfl) (by simp [envC6]) rfl⟩

/-- The temporary converted file created by `_convert_audio` (none when the
input is already `.opus`). -/
def convertedFiles (env : PipelineEnv) : List TempFile :=
  if env.inputIsOpus then [] else [TempFile.converted]

/-- C7 (amended): once the cancellation flag is set (first read as set at the
boundary before segment `i`), no recognition call is made for segment `i` or
any later segment — the recognition log is exactly the first `i` segments —
and the run terminates with `UserCancelled`; but, contrary to the claim,
nothing is cleaned up on this path: every extracted segment file and the
temporary converted file are still present when the run terminates
(`_cleanup_temp_files` runs only on the success path). -/
theorem pipeline_cancellation_no_cleanup (cfg : GroupCfg) (env : PipelineEnv)
    (hex : env.inputExists = true)
    (hconv : env.inputIsOpus = true ∨ env.conversionOk = true)
    (hspeech : env.vadSpeech ≠ [])
    (i : ℕ)
    (hset : env.stopFlag (4 + i) = true)
    (hbefore : ∀ j, j < 4 + i → env.stopFlag j = false)
    (hlen : i ≤ (materialize cfg env).length) :
    (processAudioFile cfg env).1 = Except.error PipelineErr.userCancelled ∧
    (processAudioFile cfg env).2.2 =
      ((materialize cfg env).take i).map (fun s => s.idx) ∧
    (processAudioFile cfg env).2.1 =
      convertedFiles env ++
        (materialize cfg env).map (fun s => TempFile.segment s.idx) := by
  have hs0 : env.stopFlag 0 = false := hbefore 0 (by omega)
  have hs1 : env.stopFlag 1 = false := hbefore 1 (by omega)
  have hs2 : env.stopFlag 2 = false := hbefore 2 (by omega)
  have hs3 : env.stopFlag 3 = false := hbefore 3 (by omega)
  rcases Nat.lt_or_ge i (materialize cfg env).length with hi | hi
  · rcases recognizeLoop_cancelled env (materialize cfg env) 4 env.initCtx i hi
        hset (fun k hk1 hk2 => hbefore k (by omega)) with ⟨h1, h2⟩
    rcases hconv with hop | hok
    · refine ⟨?_, ?_, ?_⟩ <;>
        simp [processAudioFile, convertAudio, convertedFiles, hex, hspeech,
          hop, hs0, hs1, hs2, hs3, h1, h2]
    · by_cases hop : env.inputIsOpus = true
      · refine ⟨?_, ?_, ?_⟩ <;>
          simp [processAudioFile, convertAudio, convertedFiles, hex, hspeech,
            hop, hs0, hs1, hs2, hs3, h1, h2]
      · refine ⟨?_, ?_, ?_⟩ <;>
          simp [processAudioFile, convertAudio, convertedFiles, hex, hspeech,
            hop, hok, hs0, hs1, hs2, hs3, h1, h2]
  · have hieq : i = (materialize cfg env).length := le_antisymm hlen hi
    rcases recognizeLoop_clean env (materialize cfg env) 4 env.initCtx
        (fun k hk1 hk2 => hbefore k (by omega)) with ⟨h1, h2, h3⟩
    have hsave : env.stopFlag (4 + (materialize cfg env).length) = true := by
      rw [← hieq] at *
      exact hset
    have htake : ((materialize cfg env).take i) = materialize cfg env := by
      rw [hieq]
      exact List.take_length _
    rcases hconv with hop | hok
    · refine ⟨?_, ?_, ?_⟩ <;>
        simp [processAudioFile, convertAudio, convertedFiles, hex, hspeech,
          hop, hs0, hs1, hs2, hs3, h1, h2, h3, hsave, htake]
    · by_cases hop : env.inputIsOpus = true
      · refine ⟨?_, ?_, ?_⟩ <;>
          simp [processAudioFile, convertAudio, convertedFiles, hex, hspeech,
            hop, hs0, hs1, hs2, hs3, h1, h2, h3, hsave, htake]
      · refine ⟨?_, ?_, ?_⟩ <;>
          simp [processAudioFile, convertAudio, convertedFiles, hex, hspeech,
            hop, hok, hs0, hs1, hs2, hs3, h1, h2, h3, hsave, htake]

def envC7 : PipelineEnv :=
  { inputExists := true, inputIsOpus := true, conversionOk := true,
    vadSpeech := [⟨0, 2, true, 1⟩], vadAll := [⟨0, 2, true, 1⟩],
    extractOk := fun _ => true, recognize := fun _ _ => ⟨true, "t"⟩,
    count := fun _ => 0, initCtx := ⟨9000, "", []⟩, saveOk := true,
    stopFlag := fun c => decide (4 ≤ c) }

/-- C7 counterexample: the flag is set just before the first segment; the run
terminates with `UserCancelled` but the already-extracted segment file is
still present — temp files are not deleted on the cancellation path. -/
theorem envC7_groups :
    groupSpeechSegments ⟨180, 1⟩ [⟨0, 2, true, 1⟩] [⟨0, 2, true, 1⟩] =
      [[⟨0, 2, true, 1⟩]] := by
  norm_num [groupSpeechSegments, pySortByStart, insertStable, groupGo, closeGroup,
    VADSegment.duration]

theorem envC7_materialize :
    materialize ⟨180, 1⟩ envC7 = [⟨0, 0, 2⟩] := by
  have hvs : envC7.vadSpeech = [⟨0, 2, true, 1⟩] := rfl
  have hva : envC7.vadAll = [⟨0, 2, true, 1⟩] := rfl
  have hx0 : envC7.extractOk 0 = true := rfl
  unfold materialize
  rw [hvs, hva, envC7_groups]
  norm_num [List.enum, List.enumFrom, List.filterMap_cons, List.filterMap_nil,
    groupStart, groupEnd, hx0]

theorem pipeline_cancel_leaves_temp_files_counterexample :
    processAudioFile ⟨180, 1⟩ envC7 =
      (Except.error PipelineErr.userCancelled, [TempFile.segment 0], []) ∧
    ([TempFile.segment 0] : List TempFile) ≠ [] := by
  have h4 : envC7.stopFlag 4 = true := rfl
  have hloop : recognizeLoop envC7 [⟨0, 0, 2⟩] 4 envC7.initCtx =
      (Except.error PipelineErr.userCancelled, 4, envC7.initCtx, []) := by
    norm_num [recognizeLoop, h4]
  have hex : envC7.inputExists = true := rfl
  have hop : envC7.inputIsOpus = true := rfl
  have h0 : envC7.stopFlag 0 = false := rfl
  have h1 : envC7.stopFlag 1 = false := rfl
  have h2 : envC7.stopFlag 2 = false := rfl
  have h3 : envC7.stopFlag 3 = false := rfl
  have hvs : envC7.vadSpeech = [⟨0, 2, true, 1⟩] := rfl
  refine ⟨?_, by simp⟩
  norm_num [processAudioFile, convertAudio, hex, hop, h0, h1, h2, h3, hvs,
    envC7_materialize, hloop]

theorem envC7_before (j : ℕ) (hj : j < 4 + 0) : envC7.stopFlag j = false := by
  have h : ¬ (4 ≤ j) := by omega
  simp [envC7, h]

theorem pipeline_cancellation_no_cleanup_witness :
    (envC7.inputExists = true ∧ (envC7.inputIsOpus = true ∨ envC7.conversionOk = true) ∧
      envC7.vadSpeech ≠ [] ∧ envC7.stopFlag (4 + 0) = true ∧
      (∀ j, j < 4 + 0 → envC7.stopFlag j = false) ∧
      0 ≤ (materialize ⟨180, 1⟩ envC7).length) ∧
    ((processAudioFile ⟨180, 1⟩ envC7).1 = Except.error PipelineErr.userCancelled ∧
      (processAudioFile ⟨180, 1⟩ envC7).2.2 =
        ((materialize ⟨180, 1⟩ envC7).take 0).map (fun s => s.idx) ∧
      (processAudioFile ⟨180, 1⟩ envC7).2.1 =
        convertedFiles envC7 ++
          (materialize ⟨180, 1⟩ envC7).map (fun s => TempFile.segment s.idx)) :=
  ⟨⟨rfl, Or.inl rfl, by simp [envC7], rfl, envC7_before, Nat.zero_le _⟩,
    pipeline_cancellation_no_cleanup ⟨180, 1⟩ envC7 rfl (Or.inl rfl)
      (by simp [envC7]) 0 rfl envC7_before (Nat.zero_le _)⟩

end Voicer
